import Mathlib

/-!
Verification of the `code_clean.py` lint-finding patcher.

Strings are modelled as `List Char` (`Str`).  The Python string primitives
used by the program (`find`, `rfind`, `replace`, slicing, negative
indexing, `readlines`) are embedded below with Python semantics:
`find`/`rfind` return `-1` when the needle is absent, `replace` rewrites
every leftmost non-overlapping occurrence, indexing wraps one length for
negative indices and raises (modelled as `none`) out of range.
-/

namespace CodeClean

abbrev Str := List Char

/-- Python `s[i]`: negative indices wrap once; out of range is an error. -/
def pyGet (l : List α) (i : Int) : Option α :=
  if 0 ≤ i then l.get? i.toNat
  else if 0 ≤ (l.length : Int) + i then l.get? ((l.length : Int) + i).toNat
  else none

/-- Index (from the front of `s`) of the first occurrence of `sub`, if any. -/
def findIdxSub (sub : Str) : Str → Option Nat
  | [] => if ([] : Str).take sub.length = sub then some 0 else none
  | c :: t =>
    if (c :: t).take sub.length = sub then some 0
    else (findIdxSub sub t).map (· + 1)

/-- Python `s.find(sub)`: first index of `sub` in `s`, `-1` if absent. -/
def pyFind (s sub : Str) : Int :=
  match findIdxSub sub s with
  | some n => (n : Int)
  | none => -1

/-- Helper for `pyRfind`: largest index `≤ n` at which `sub` occurs, else `-1`. -/
def rfindAux (s sub : Str) : Nat → Int
  | 0 => if s.take sub.length = sub then 0 else -1
  | n + 1 =>
    if (s.drop (n + 1)).take sub.length = sub then ((n + 1 : Nat) : Int)
    else rfindAux s sub n

/-- Python `s.rfind(sub)`: last index of `sub` in `s`, `-1` if absent. -/
def pyRfind (s sub : Str) : Int := rfindAux s sub s.length

theorem take_eq_length_le {s pre : Str} (h : s.take pre.length = pre) :
    pre.length ≤ s.length := by
  have := congrArg List.length h
  simp only [List.length_take] at this
  omega

/-- Fuel-indexed scan of Python `replace`; one unit of fuel is consumed per
character or matched occurrence, so `s.length` fuel always suffices.  The
zero-fuel fallback is never reached from the wrapper. -/
def strReplaceF : Nat → Str → Str → Str → Str
  | 0, s, _, _ => s
  | fuel + 1, s, old, new =>
    if old ≠ [] ∧ s.take old.length = old then
      new ++ strReplaceF fuel (s.drop old.length) old new
    else
      match s with
      | [] => []
      | c :: t => c :: strReplaceF fuel t old new

/-- Python `s.replace(old, new)` for nonempty `old`: rewrite every leftmost
non-overlapping occurrence.  (The program never calls `replace` with an
empty pattern, so the `old = []` behaviour is irrelevant; here it is the
identity.) -/
def strReplace (s old new : Str) : Str := strReplaceF s.length s old new

theorem strReplaceF_irrel {old new : Str} :
    ∀ f1 f2 s, s.length ≤ f1 → s.length ≤ f2 →
      strReplaceF f1 s old new = strReplaceF f2 s old new := by
  intro f1
  induction f1 with
  | zero =>
    intro f2 s h1 h2
    have hnil : s = [] := List.eq_nil_of_length_eq_zero (by omega)
    subst hnil
    cases f2 with
    | zero => rfl
    | succ m2 =>
      show ([] : Str) = strReplaceF (m2 + 1) [] old new
      simp only [strReplaceF]
      rw [if_neg (by rintro ⟨hne, htake⟩; exact hne (by simpa using htake.symm))]
  | succ m ih =>
    intro f2 s h1 h2
    cases f2 with
    | zero =>
      have hnil : s = [] := List.eq_nil_of_length_eq_zero (by omega)
      subst hnil
      show strReplaceF (m + 1) [] old new = ([] : Str)
      simp only [strReplaceF]
      rw [if_neg (by rintro ⟨hne, htake⟩; exact hne (by simpa using htake.symm))]
    | succ m2 =>
      simp only [strReplaceF]
      by_cases hc : old ≠ [] ∧ s.take old.length = old
      · rw [if_pos hc, if_pos hc]
        have hlen : 0 < old.length := List.length_pos.mpr hc.1
        have hle : old.length ≤ s.length := take_eq_length_le hc.2
        rw [ih m2 (s.drop old.length) (by simp only [List.length_drop]; omega)
          (by simp only [List.length_drop]; omega)]
      · rw [if_neg hc, if_neg hc]
        match s with
        | [] => rfl
        | c :: t =>
          show c :: strReplaceF m t old new = c :: strReplaceF m2 t old new
          rw [ih m2 t (by simp at h1; omega) (by simp at h2; omega)]

theorem strReplace_nil (old new : Str) : strReplace [] old new = [] := rfl

theorem strReplace_pos {s old new : Str} (h : old ≠ [] ∧ s.take old.length = old) :
    strReplace s old new = new ++ strReplace (s.drop old.length) old new := by
  have hlen : 0 < old.length := List.length_pos.mpr h.1
  have hle : old.length ≤ s.length := take_eq_length_le h.2
  obtain ⟨m, hm⟩ : ∃ m, s.length = m + 1 := ⟨s.length - 1, by omega⟩
  unfold strReplace
  rw [hm]
  simp only [strReplaceF]
  rw [if_pos h]
  congr 1
  exact strReplaceF_irrel m _ _ (by simp only [List.length_drop]; omega) le_rfl

theorem strReplace_cons_neg {c : Char} {t old new : Str}
    (h : ¬(old ≠ [] ∧ (c :: t).take old.length = old)) :
    strReplace (c :: t) old new = c :: strReplace t old new := by
  show strReplaceF (t.length + 1) (c :: t) old new = _
  simp only [strReplaceF]
  rw [if_neg h]
  rfl

/-- Python `s.replace(old, new, 1)`: replace only the first occurrence. -/
def replaceFirst (s old new : Str) : Str :=
  match findIdxSub old s with
  | none => s
  | some i => s.take i ++ new ++ s.drop (i + old.length)

/-- Fuel-indexed version of `splitGo`; `s.length` fuel always suffices, and
the zero-fuel fallback `[s]` agrees with the real value on the only
reachable input `s = []`. -/
def splitGoF : Nat → Str → Str → List Str
  | 0, s, _ => [s]
  | fuel + 1, s, sep =>
    if sep ≠ [] ∧ s.take sep.length = sep then
      [] :: splitGoF fuel (s.drop sep.length) sep
    else
      match s with
      | [] => [[]]
      | c :: t =>
        match splitGoF fuel t sep with
        | [] => [[c]]
        | p :: ps => (c :: p) :: ps

/-- Greedy decomposition of `s` at the leftmost non-overlapping occurrences
of `sep`; the pieces interleaved with `sep` reassemble `s`. -/
def splitGo (s sep : Str) : List Str := splitGoF s.length s sep

theorem splitGoF_irrel {sep : Str} :
    ∀ f1 f2 s, s.length ≤ f1 → s.length ≤ f2 →
      splitGoF f1 s sep = splitGoF f2 s sep := by
  intro f1
  induction f1 with
  | zero =>
    intro f2 s h1 h2
    have hnil : s = [] := List.eq_nil_of_length_eq_zero (by omega)
    subst hnil
    cases f2 with
    | zero => rfl
    | succ m2 =>
      show [([] : Str)] = splitGoF (m2 + 1) [] sep
      simp only [splitGoF]
      rw [if_neg (by rintro ⟨hne, htake⟩; exact hne (by simpa using htake.symm))]
  | succ m ih =>
    intro f2 s h1 h2
    cases f2 with
    | zero =>
      have hnil : s = [] := List.eq_nil_of_length_eq_zero (by omega)
      subst hnil
      show splitGoF (m + 1) [] sep = [([] : Str)]
      simp only [splitGoF]
      rw [if_neg (by rintro ⟨hne, htake⟩; exact hne (by simpa using htake.symm))]
    | succ m2 =>
      simp only [splitGoF]
      by_cases hc : sep ≠ [] ∧ s.take sep.length = sep
      · rw [if_pos hc, if_pos hc]
        have hlen : 0 < sep.length := List.length_pos.mpr hc.1
        have hle : sep.length ≤ s.length := take_eq_length_le hc.2
        rw [ih m2 (s.drop sep.length) (by simp only [List.length_drop]; omega)
          (by simp only [List.length_drop]; omega)]
      · rw [if_neg hc, if_neg hc]
        match s with
        | [] => rfl
        | c :: t =>
          have ht := ih m2 t (by simp at h1; omega) (by simp at h2; omega)
          show (match splitGoF m t sep with
                | [] => [[c]]
                | p :: ps => (c :: p) :: ps) =
              (match splitGoF m2 t sep with
                | [] => [[c]]
                | p :: ps => (c :: p) :: ps)
          rw [ht]

/-- Reassemble pieces with a separator between consecutive pieces. -/
def strIntercalate (sep : Str) : List Str → Str
  | [] => []
  | [x] => x
  | x :: y :: r => x ++ sep ++ strIntercalate sep (y :: r)

/-- Normalise one bound of a Python slice against a length. -/
def sliceNorm (len : Nat) (i : Int) : Nat :=
  if i < 0 then (max 0 ((len : Int) + i)).toNat else min i.toNat len

/-- Python `s[a:b]`. -/
def pySlice (s : Str) (a b : Int) : Str :=
  (s.take (sliceNorm s.length b)).drop (sliceNorm s.length a)

/-- First line of `s` (including its terminator) and the remainder. -/
def takeLine : Str → Str × Str
  | [] => ([], [])
  | c :: t =>
    if c = '\n' then ([c], t)
    else
      match takeLine t with
      | (l, r) => (c :: l, r)

/-- Fuel-indexed version of `readlines`; each line consumes at least one
character, so `s.length` fuel always suffices. -/
def pyReadlinesF : Nat → Str → List Str
  | 0, _ => []
  | fuel + 1, s =>
    match s with
    | [] => []
    | c :: t =>
      match takeLine (c :: t) with
      | (l, r) => l :: pyReadlinesF fuel r

/-- Python `f.readlines()`: split into lines, keeping terminators. -/
def pyReadlines (s : Str) : List Str := pyReadlinesF s.length s

/-- Number of newline characters in a string. -/
def countNL (s : Str) : Nat :=
  s.foldr (fun c n => if c = '\n' then n + 1 else n) 0

/-! ## The program state and data model

A finding (one entry of `problems.txt`) carries the fields the program
reads.  The program state consists of the file system (modelled as a total
map from path to content; the program opens files for reading and rewrites
them in place), the `lines_dict` ledger (modelled as a total map defaulting
to `0`, which is observationally equivalent to the source's
membership-checked dict, and keyed by the path itself: the source keys it
by the MD5 hex digest of the path, an injective encoding), and the
`test_file_list` accumulator. -/

structure Finding where
  resource : Str
  message : Str
  code : Str
  startLineNumber : Int

structure St where
  files : Str → Str
  ledger : Str → Int
  testFiles : List Str

def update {β : Type} (f : Str → β) (k : Str) (v : β) : Str → β :=
  fun q => if q = k then v else f q

/-! ## Program constants (from the top of `code_clean.py`) -/

def strGoLiteral : Str := "literal_".toList

def constLiteralPat : Str := "const ".toList ++ strGoLiteral

def strJavaException : Str :=
  ("\n\tprivate class MultiPathRuntimeError extends RuntimeException\x7b\n \t\tpublic MultiPathRuntimeError(String error)\x7b\n\t\t\tsuper(error);\n\t\t\x7d\n\t\tpublic MultiPathRuntimeError(String error,Throwable e)\x7b\n\t\t\tsuper(error,e);\n\t\t\x7d\n\t\x7d\n").toList

def slashStr : Str := "/".toList

def funcStr : Str := "func ".toList

def ifStr : Str := "if ".toList

def elseStr : Str := "else".toList

def elseSpStr : Str := "else ".toList

def slashSlash : Str := "//".toList

def openCmt : Str := "/*".toList

def closeCmt : Str := "*/".toList

def pkgStr : Str := "package".toList

def testStr : Str := "test".toList

def reStr : Str := "RuntimeException(".toList

def mpStr : Str := "MultiPathRuntimeError(".toList

def goS1192 : Str := "go:S1192".toList

/-! ## getLiteral and the S1192 literal extractor -/

/-- `getLiteral`: the text between `this literal "` and the message's last
quote (`message[pos1+14:pos2]`). -/
def getLiteral (message : Str) : Str :=
  let pos1 := pyFind message ("this literal \"".toList)
  let pos2 := pyRfind message ['\"']
  pySlice message (pos1 + 14) pos2

def quoteStr (L : Str) : Str := '\"' :: (L ++ ['\"'])

/-- The trailing declaration `solve1192` appends:
`"\nconst " + literal_def + " = \"" + literal + "\"\n"`. -/
def constDecl (name L : Str) : Str :=
  '\n' :: ("const ".toList ++ name ++ " = \"".toList ++ L ++ "\"\n".toList)

/-- The skip condition of `solve1192`. -/
def s1192Guard (codes L : Str) : Bool :=
  decide (pyFind codes L < 0 ∨
    (0 < pyRfind codes constLiteralPat ∧ pyRfind codes constLiteralPat < pyRfind codes L))

/-- The file transformation of `solve1192`, parameterised by the generated
constant name (`literal_` + 4 sampled digits in the source). -/
def extract1192 (codes L name : Str) : Str :=
  if s1192Guard codes L then codes
  else strReplace codes (quoteStr L) name ++ constDecl name L

/-- `solve1192`: note that the source uses `problem["resource"]` as-is
(the leading-slash strip is commented out), and writes only when the guard
does not trip. -/
def solve1192 (p : Finding) (suffix : Str) (st : St) : St :=
  let path := p.resource
  let L := getLiteral p.message
  let codes := st.files path
  if s1192Guard codes L then st
  else { st with files := update st.files path (extract1192 codes L (strGoLiteral ++ suffix)) }

/-! ## findCodes (the function-boundary locator) -/

/-- The backward `while start>=0` scan of `findCodes`, entered at a
non-negative index: yields the nearest index `≤ start` whose line contains
`"func "`, `-1` if none, and `none` when `lines[start]` raises. -/
def scanBackFunc (lines : List Str) : Nat → Option Int
  | 0 =>
    match lines.get? 0 with
    | none => none
    | some l => if 0 ≤ pyFind l funcStr then some 0 else some (-1)
  | n + 1 =>
    match lines.get? (n + 1) with
    | none => none
    | some l => if 0 ≤ pyFind l funcStr then some ((n + 1 : Nat) : Int) else scanBackFunc lines n

/-- Fuel-indexed forward scan of `findCodes`; the zero-fuel fallback agrees
with the loop-exit value, and `((lines.length : Int) - pos).toNat` fuel is
always enough. -/
def findCodesFwdF (lines : List Str) : Nat → Int → Str → Option (Int × Str)
  | 0, pos, codes => some (pos, codes)
  | fuel + 1, pos, codes =>
    if pos < (lines.length : Int) then
      match pyGet lines pos with
      | none => none
      | some l =>
        match pyGet l 0 with
        | none => none
        | some c =>
          if c = '\x7d' then some (pos, codes ++ l)
          else findCodesFwdF lines fuel (pos + 1) (codes ++ l)
    else some (pos, codes)

/-- The forward `while pos<len(lines)` scan of `findCodes`, accumulating
lines until one starts with a closing brace. -/
def findCodesFwd (lines : List Str) (pos : Int) (codes : Str) : Option (Int × Str) :=
  findCodesFwdF lines ((lines.length : Int) - pos).toNat pos codes

/-- `findCodes(lines, start)`, returning `(start, line_num, codes)`;
`none` models a raised `IndexError`. -/
def findCodes (lines : List Str) (start : Int) : Option (Int × Int × Str) :=
  let sres : Option Int := if start < 0 then some start else scanBackFunc lines start.toNat
  match sres with
  | none => none
  | some st0 =>
    match pyGet lines st0 with
    | none => none
    | some codes =>
      if 0 < pyFind codes ['\x7d'] then some (st0, 1, codes)
      else
        match findCodesFwd lines (st0 + 1) codes with
        | none => none
        | some (pos, cs) => some (st0, pos - st0 + 1, cs)

/-! ## findEndIf and reduceComplexity -/

/-- The scan of `findEndIf`: stops at a line whose character at column
`col` is `}` (and which is not an `else` continuation or a comment);
returns the accumulated lines and the consumed-line count, `-1` on
reaching `endB`. -/
def findEndIfGoF (lines : List Str) (col endB : Int) : Nat → Int → Str → Int → Option (Str × Int)
  | 0, _, codes, _ => some (codes, -1)
  | fuel + 1, index, codes, ifLines =>
    if index < endB then
      match pyGet lines index with
      | none => none
      | some l =>
        if col < (l.length : Int) ∧ pyGet l col = some '\x7d' ∧
            pyFind l elseStr < 0 ∧ pyFind l slashSlash < 0 then
          some (codes ++ l, ifLines)
        else findEndIfGoF lines col endB fuel (index + 1) (codes ++ l) (ifLines + 1)
    else some (codes, -1)

def findEndIf (lines : List Str) (col : Int) (index endB : Int) : Option (Str × Int) :=
  findEndIfGoF lines col endB (endB - index).toNat index [] 1

/-- Result of `reduceComplexity`: the rewritten span, the status flag
(`1` success, `-1` failure), the net line delta, and — as instrumentation
for the statements below — the number of blocks wrapped. -/
structure RCRes where
  code : Str
  status : Int
  newLines : Int
  blocks : Nat
deriving DecidableEq

def tabs (col : Int) : Str := List.replicate col.toNat '\t'

/-- Fuel-indexed loop of `reduceComplexity`.  `none` models a raised
`IndexError` (also used for the unreachable `ifLines = 0` case, where the
source loop would not terminate; `findEndIf` only returns `-1` or a count
`≥ 1`).  The zero-fuel fallback agrees with the loop-exit value, and
`(start + line_num - index).toNat` fuel is always enough. -/
def rcGoF (lines : List Str) (start line_num : Int) :
    Nat → Int → Str → Int → Nat → Option RCRes
  | 0, _, acc, nl, blocks => some ⟨acc, 1, nl, blocks⟩
  | fuel + 1, index, acc, nl, blocks =>
    if index < start + line_num then
      match pyGet lines index with
      | none => none
      | some l =>
        let col := pyFind l ifStr
        if 3 ≤ col ∧ pyFind l elseSpStr < 0 ∧ pyFind l slashSlash < 0 then
          match pyGet lines (index - 1) with
          | none => none
          | some prev =>
            if pyFind prev openCmt < 0 then
              match findEndIf lines col index (start + line_num) with
              | none => none
              | some (codes, ifLines) =>
                if ifLines < 0 then some ⟨acc ++ tabs col ++ "/*\n".toList, -1, 0, blocks⟩
                else if ifLines = 0 then none
                else
                  rcGoF lines start line_num fuel (index + ifLines)
                    (acc ++ tabs col ++ "/*\n".toList ++
                      strReplace (strReplace codes openCmt []) closeCmt [] ++
                      tabs col ++ "*/\n".toList)
                    (nl + 2) (blocks + 1)
            else rcGoF lines start line_num fuel (index + 1) (acc ++ l) nl blocks
        else rcGoF lines start line_num fuel (index + 1) (acc ++ l) nl blocks
    else some ⟨acc, 1, nl, blocks⟩

def reduceComplexity (lines : List Str) (start line_num : Int) : Option RCRes :=
  rcGoF lines start line_num line_num.toNat start [] 0 0

/-! ## fillEmpty -/

/-- The placeholder comment built by `fillEmpty`:
`"  //" + codes` with braces and newlines stripped. -/
def fillRef (codes : Str) : Str :=
  "  //".toList ++
    strReplace (strReplace (strReplace codes ['\x7b'] []) ['\x7d'] []) ['\n'] []

/-- One branch body of `fillEmpty` (the `line_num == 1` and `line_num == 2`
branches of the source are identical). -/
def fillStep (codes : Str) : Str × Int :=
  (strReplace codes ['\x7d'] ('\n' :: (fillRef codes ++ '\n' :: ['\x7d'])), 2)

/-- `fillEmpty(codes, line_num)`: the two disjoint `if`s of the source in
sequence, accumulating `new_lines`. -/
def fillEmpty (codes : Str) (line_num : Int) : Str × Int :=
  let r1 := if line_num = 1 then fillStep codes else (codes, 0)
  let r2 := if line_num = 2 then fillStep r1.1 else (r1.1, 0)
  (r2.1, r1.2 + r2.2)

/-! ## The ledger-driven drivers solve3776 and solve1186 -/

/-- The 0-based search index a ledger-driven driver passes to `findCodes`:
`offset + problem["startLineNumber"] - 1`. -/
def effSearchStart (st : St) (p : Finding) : Int :=
  st.ledger (replaceFirst p.resource slashStr []) + p.startLineNumber - 1

/-- Outcome of the `while` loop of `solve3776`: an exception, the
`package`/`test` early return, the `reduceComplexity`-failure return, or
completion with the rewritten content and accumulated `add_lines`. -/
inductive Res3776 where
  | exn : Res3776
  | testReturn : Res3776
  | abortReturn : Res3776
  | ok : Str → Int → Res3776
deriving DecidableEq

/-- Fuel-indexed `while index < len(lines)` loop of `solve3776`.  The
`line_num ≤ 0` guard maps the source's non-terminating case (unreachable:
`findCodes` returns a positive length) to an exception.  The zero-fuel
fallback agrees with the loop-exit value, and `lines.length - index` fuel
is always enough. -/
def loop3776F (lines : List Str) (start line_num : Int) :
    Nat → Nat → Str → Int → Res3776
  | 0, _, acc, add => .ok acc add
  | fuel + 1, index, acc, add =>
    if (index : Int) < (lines.length : Int) then
      match lines.get? index with
      | none => .exn
      | some l =>
        if 0 ≤ pyFind l pkgStr ∧ 0 ≤ pyFind l testStr then .testReturn
        else if (index : Int) = start then
          match reduceComplexity lines start line_num with
          | none => .exn
          | some r =>
            if r.status < 0 then .abortReturn
            else if line_num ≤ 0 then .exn
            else loop3776F lines start line_num fuel (index + line_num.toNat)
              (acc ++ r.code) (add + r.newLines)
        else loop3776F lines start line_num fuel (index + 1) (acc ++ l) add
    else .ok acc add

def loop3776 (lines : List Str) (start line_num : Int) (index : Nat) (acc : Str) (add : Int) :
    Res3776 :=
  loop3776F lines start line_num (lines.length - index) index acc add

/-- `solve3776` with its outcome instrumented: `none` models an uncaught
exception; otherwise the new state together with `some add_lines` exactly
when the final write (and ledger update) happened. -/
def solve3776Full (p : Finding) (st : St) : Option (St × Option Int) :=
  let path := replaceFirst p.resource slashStr []
  if 0 ≤ pyFind path testStr then
    some ({ st with testFiles := st.testFiles ++ [path] }, none)
  else
    let lines := pyReadlines (st.files path)
    match findCodes lines (effSearchStart st p) with
    | none => none
    | some (start, line_num, _) =>
      match loop3776 lines start line_num 0 [] 0 with
      | .exn => none
      | .testReturn => some ({ st with testFiles := st.testFiles ++ [path] }, none)
      | .abortReturn => some (st, none)
      | .ok newCodes addLines =>
        some ({ st with
                  files := update st.files path newCodes,
                  ledger := update st.ledger path (st.ledger path + addLines) },
              some addLines)

/-- Fuel-indexed `while` loop of `solve1186` (no test checks, no failure
branch). -/
def loop1186F (lines : List Str) (start line_num : Int) (spanCodes : Str) :
    Nat → Nat → Str → Int → Option (Str × Int)
  | 0, _, acc, add => some (acc, add)
  | fuel + 1, index, acc, add =>
    if (index : Int) < (lines.length : Int) then
      if (index : Int) = start then
        if line_num ≤ 0 then none
        else
          let r := fillEmpty spanCodes line_num
          loop1186F lines start line_num spanCodes fuel (index + line_num.toNat)
            (acc ++ r.1) (add + r.2)
      else
        match lines.get? index with
        | none => none
        | some l => loop1186F lines start line_num spanCodes fuel (index + 1) (acc ++ l) add
    else some (acc, add)

def loop1186 (lines : List Str) (start line_num : Int) (spanCodes : Str) (index : Nat)
    (acc : Str) (add : Int) : Option (Str × Int) :=
  loop1186F lines start line_num spanCodes (lines.length - index) index acc add

/-- `solve1186` with its outcome instrumented like `solve3776Full`. -/
def solve1186Full (p : Finding) (st : St) : Option (St × Option Int) :=
  let path := replaceFirst p.resource slashStr []
  let lines := pyReadlines (st.files path)
  match findCodes lines (effSearchStart st p) with
  | none => none
  | some (start, line_num, codes) =>
    match loop1186 lines start line_num codes 0 [] 0 with
    | none => none
    | some (newCodes, add) =>
      some ({ st with
                files := update st.files path newCodes,
                ledger := update st.ledger path (st.ledger path + add) },
            some add)

/-! ## solve112 (the exception renamer) -/

def solve112 (p : Finding) (st : St) : St :=
  let path := replaceFirst p.resource slashStr []
  let codes := st.files path
  if pyFind codes reStr < 0 then st
  else
    let nc := strReplace codes reStr mpStr
    let endPos := pyRfind nc ['\x7d']
    { st with files :=
        update st.files path (pySlice nc 0 endPos ++ strJavaException ++ pySlice nc endPos (-1)) }

/-! ## The main dispatch loop

`main` iterates over the findings and dispatches only `go:S1192` to
`solve1192`; every other dispatch in the source is commented out.  The
random 4-digit suffix the source samples at each `solve1192` call is
modelled by pairing each finding with the suffix the generator would
produce. -/

def mainStep (pr : Finding × Str) (st : St) : St :=
  if pr.1.code = goS1192 then solve1192 pr.1 pr.2 st else st

def runMain (ps : List (Finding × Str)) (st : St) : St :=
  ps.foldl (fun s pr => mainStep pr s) st

/-! ## Sequences of ledger-driven driver invocations -/

inductive DStep where
  | d3776 : Finding → DStep
  | d1186 : Finding → DStep

def dFinding : DStep → Finding
  | .d3776 p => p
  | .d1186 p => p

def dpath (s : DStep) : Str := replaceFirst (dFinding s).resource slashStr []

def stepFull : DStep → St → Option (St × Option Int)
  | .d3776 p, st => solve3776Full p st
  | .d1186 p, st => solve1186Full p st

def runD : List DStep → St → Option St
  | [], st => some st
  | s :: r, st =>
    match stepFull s st with
    | none => none
    | some (st2, _) => runD r st2

/-- The sum of the `add_lines` deltas recorded by the successful edits
along a run. -/
def sumDeltas : List DStep → St → Int
  | [], _ => 0
  | s :: r, st =>
    match stepFull s st with
    | none => 0
    | some (st2, d) => d.getD 0 + sumDeltas r st2

/-! ## Auxiliary observers used by the statements -/

def lineAt (lines : List Str) (i : Nat) : Str := (lines.get? i).getD []

/-- Fuel-indexed concatenation of lines `index ≤ i < endB` (Python
indexing). -/
def sjGoF (lines : List Str) (endB : Int) : Nat → Int → Str
  | 0, _ => []
  | fuel + 1, index =>
    if index < endB then ((pyGet lines index).getD []) ++ sjGoF lines endB fuel (index + 1)
    else []

/-- The text of lines `index ≤ i < endB` (Python indexing). -/
def sjGo (lines : List Str) (endB : Int) (index : Int) : Str :=
  sjGoF lines endB (endB - index).toNat index

def spanJoin (lines : List Str) (start line_num : Int) : Str :=
  sjGo lines (start + line_num) start

/-! ## Occurrence of a substring at a position -/

/-- `sub` occurs in `s` at (0-based) position `i`. -/
def occAt (s sub : Str) (i : Nat) : Prop := (s.drop i).take sub.length = sub

instance (s sub : Str) (i : Nat) : Decidable (occAt s sub i) := by
  unfold occAt; infer_instance

theorem occAt_zero_iff {s sub : Str} : occAt s sub 0 ↔ s.take sub.length = sub := by
  simp [occAt]

theorem occAt_cons_succ {c : Char} {t sub : Str} {i : Nat} :
    occAt (c :: t) sub (i + 1) ↔ occAt t sub i := by
  simp [occAt]

theorem occAt_le_length {s sub : Str} {i : Nat} (hne : sub ≠ []) (h : occAt s sub i) :
    i + sub.length ≤ s.length := by
  have h1 : sub.length ≤ (s.drop i).length := take_eq_length_le h
  have h2 : 0 < sub.length := List.length_pos.mpr hne
  simp only [List.length_drop] at h1
  omega

theorem occAt_get {s sub : Str} {i : Nat} (h : occAt s sub i) {k : Nat} (hk : k < sub.length) :
    s.get? (i + k) = sub.get? k := by
  have h2 : sub.get? k = ((s.drop i).take sub.length).get? k := by rw [h]
  rw [List.get?_take hk, List.get?_drop] at h2
  exact h2.symm

theorem occAt_append_right {a b sub : Str} {j : Nat} (h : occAt b sub j) :
    occAt (a ++ b) sub (a.length + j) := by
  unfold occAt at *
  rw [List.drop_append]
  exact h

theorem occAt_append_left {a b sub : Str} {i : Nat} (hi : i + sub.length ≤ a.length)
    (h : occAt (a ++ b) sub i) : occAt a sub i := by
  unfold occAt at *
  rw [List.drop_append_of_le_length (by omega)] at h
  rw [List.take_append_of_le_length (by simp [List.length_drop]; omega)] at h
  exact h

theorem occAt_append_left_intro {a b sub : Str} {i : Nat} (hi : i + sub.length ≤ a.length)
    (h : occAt a sub i) : occAt (a ++ b) sub i := by
  unfold occAt at *
  rw [List.drop_append_of_le_length (by omega),
    List.take_append_of_le_length (by simp [List.length_drop]; omega)]
  exact h

theorem occAt_append_elim {a b sub : Str} {i : Nat} (h : occAt (a ++ b) sub i) :
    (i + sub.length ≤ a.length ∧ occAt a sub i) ∨
    (a.length ≤ i ∧ occAt b sub (i - a.length)) ∨
    (i < a.length ∧ a.length < i + sub.length) := by
  rcases le_or_lt (i + sub.length) a.length with h1 | h1
  · exact Or.inl ⟨h1, occAt_append_left h1 h⟩
  · rcases le_or_lt a.length i with h2 | h2
    · refine Or.inr (Or.inl ⟨h2, ?_⟩)
      unfold occAt at *
      rw [show i = a.length + (i - a.length) by omega, List.drop_append] at h
      exact h
    · exact Or.inr (Or.inr ⟨h2, h1⟩)

theorem occAt_straddle_mem {a b sub : Str} {c : Char} {i : Nat}
    (h : occAt (a ++ c :: b) sub i) (h1 : i < a.length) (h2 : a.length < i + sub.length) :
    c ∈ sub := by
  have hg := occAt_get h (k := a.length - i) (by omega)
  rw [show i + (a.length - i) = a.length by omega] at hg
  have hb : (a ++ c :: b).get? a.length = some c := by
    rw [List.get?_append_right (Nat.le_refl _)]
    simp
  rw [hb] at hg
  exact List.get?_mem hg.symm

theorem not_occAt_of_not_mem {s sub : Str} {c : Char} (hc : c ∈ sub) (hs : c ∉ s) :
    ∀ i, ¬ occAt s sub i := by
  intro i h
  rcases List.mem_iff_get.mp hc with ⟨⟨k, hk⟩, hg⟩
  have h1 := occAt_get h (k := k) hk
  have h2 : sub.get? k = some c := by
    rw [List.get?_eq_get hk, hg]
  rw [h2] at h1
  exact hs (List.get?_mem h1)

/-! ## Specification of pyFind -/

theorem findIdxSub_none_iff {sub s : Str} :
    findIdxSub sub s = none ↔ ∀ i, ¬ occAt s sub i := by
  induction s with
  | nil =>
    by_cases hc : ([] : Str).take sub.length = sub
    · simp only [findIdxSub, if_pos hc]
      constructor
      · intro h; exact Option.noConfusion h
      · intro h; exact absurd (occAt_zero_iff.mpr (by simpa using hc)) (h 0)
    · simp only [findIdxSub, if_neg hc]
      constructor
      · intro _ i hz
        exact hc (by simpa [occAt] using hz)
      · intro _; trivial
  | cons c t ih =>
    by_cases hc : (c :: t).take sub.length = sub
    · simp only [findIdxSub, if_pos hc]
      constructor
      · intro h; exact Option.noConfusion h
      · intro h; exact absurd (occAt_zero_iff.mpr hc) (h 0)
    · simp only [findIdxSub, if_neg hc, Option.map_eq_none', ih]
      constructor
      · intro h i
        cases i with
        | zero => intro hz; exact hc (occAt_zero_iff.mp hz)
        | succ j => intro hz; exact h j (occAt_cons_succ.mp hz)
      · intro h j hz
        exact h (j + 1) (occAt_cons_succ.mpr hz)

theorem findIdxSub_some_occ {sub s : Str} {i : Nat} (h : findIdxSub sub s = some i) :
    occAt s sub i := by
  induction s generalizing i with
  | nil =>
    by_cases hc : ([] : Str).take sub.length = sub
    · simp only [findIdxSub, if_pos hc] at h
      obtain rfl : (0 : Nat) = i := Option.some.inj h
      exact occAt_zero_iff.mpr (by simpa using hc)
    · simp only [findIdxSub, if_neg hc] at h
      exact Option.noConfusion h
  | cons c t ih =>
    by_cases hc : (c :: t).take sub.length = sub
    · simp only [findIdxSub, if_pos hc] at h
      obtain rfl : (0 : Nat) = i := Option.some.inj h
      exact occAt_zero_iff.mpr hc
    · simp only [findIdxSub, if_neg hc] at h
      rcases Option.map_eq_some'.mp h with ⟨j, hj, rfl⟩
      exact occAt_cons_succ.mpr (ih hj)

theorem pyFind_neg_iff {s sub : Str} : pyFind s sub < 0 ↔ ∀ i, ¬ occAt s sub i := by
  cases h : findIdxSub sub s with
  | none =>
    simp only [pyFind, h]
    constructor
    · intro _; exact findIdxSub_none_iff.mp h
    · intro _; omega
  | some i =>
    simp only [pyFind, h]
    constructor
    · intro hlt; exact absurd hlt (by omega)
    · intro hall
      exact absurd (findIdxSub_some_occ h) (hall i)

theorem pyFind_nonneg_iff {s sub : Str} : 0 ≤ pyFind s sub ↔ ∃ i, occAt s sub i := by
  constructor
  · intro h
    by_contra hc
    push_neg at hc
    have := pyFind_neg_iff.mpr hc
    omega
  · intro ⟨i, hi⟩
    by_contra hc
    push_neg at hc
    exact (pyFind_neg_iff.mp (by omega)) i hi

theorem pyFind_occ {s sub : Str} (h : 0 ≤ pyFind s sub) : occAt s sub (pyFind s sub).toNat := by
  cases hf : findIdxSub sub s with
  | none => simp [pyFind, hf] at h
  | some i =>
    have := findIdxSub_some_occ hf
    simpa [pyFind, hf] using this

/-! ## Specification of pyRfind -/

theorem rfindAux_le {s sub : Str} (n : Nat) : rfindAux s sub n ≤ n := by
  induction n with
  | zero =>
    by_cases hc : s.take sub.length = sub <;> simp [rfindAux, hc]
  | succ m ih =>
    by_cases hc : (s.drop (m + 1)).take sub.length = sub
    · simp [rfindAux, hc]
    · simp only [rfindAux, if_neg hc]
      omega

theorem rfindAux_occ {s sub : Str} {n : Nat} (h : 0 ≤ rfindAux s sub n) :
    occAt s sub (rfindAux s sub n).toNat := by
  induction n with
  | zero =>
    by_cases hc : s.take sub.length = sub
    · simpa [rfindAux, hc, occAt] using hc
    · simp [rfindAux, hc] at h
  | succ m ih =>
    by_cases hc : (s.drop (m + 1)).take sub.length = sub
    · simpa [rfindAux, hc, occAt] using hc
    · simp only [rfindAux, if_neg hc] at h ⊢
      exact ih h

theorem rfindAux_ge {s sub : Str} {n k : Nat} (hk : k ≤ n) (h : occAt s sub k) :
    (k : Int) ≤ rfindAux s sub n := by
  induction n with
  | zero =>
    have hk0 : k = 0 := by omega
    subst hk0
    have hc : s.take sub.length = sub := by simpa [occAt] using h
    simp [rfindAux, hc]
  | succ m ih =>
    by_cases hc : (s.drop (m + 1)).take sub.length = sub
    · simp only [rfindAux, if_pos hc]
      omega
    · simp only [rfindAux, if_neg hc]
      rcases Nat.lt_or_ge k (m + 1) with hlt | hge
      · exact ih (by omega)
      · have hkm : k = m + 1 := by omega
        subst hkm
        have : (s.drop (m + 1)).take sub.length = sub := by simpa [occAt] using h
        exact absurd this hc

theorem rfindAux_max {s sub : Str} {n k : Nat} (hk : k ≤ n) (h : rfindAux s sub n < (k : Int)) :
    ¬ occAt s sub k :=
  fun hocc => absurd (rfindAux_ge hk hocc) (by omega)

theorem pyRfind_ge {s sub : Str} {i : Nat} (h : occAt s sub i) (hi : i ≤ s.length) :
    (i : Int) ≤ pyRfind s sub :=
  rfindAux_ge hi h

theorem pyRfind_occ {s sub : Str} (h : 0 ≤ pyRfind s sub) :
    occAt s sub (pyRfind s sub).toNat :=
  rfindAux_occ h

theorem pyRfind_le_length {s sub : Str} : pyRfind s sub ≤ s.length :=
  rfindAux_le s.length

theorem pyRfind_eq_of {s sub : Str} {i : Nat} (hne : sub ≠ []) (hocc : occAt s sub i)
    (hmax : ∀ j, i < j → ¬ occAt s sub j) : pyRfind s sub = i := by
  have hge : (i : Int) ≤ pyRfind s sub :=
    pyRfind_ge hocc (by have := occAt_le_length hne hocc; omega)
  have hnn : 0 ≤ pyRfind s sub := by omega
  have hoc2 := pyRfind_occ hnn
  by_contra hne2
  have hgt : i < (pyRfind s sub).toNat := by omega
  exact hmax _ hgt hoc2

/-! ## Specification of strReplace -/

theorem strReplace_no_occ {old new : Str} (s : Str) (h : ∀ i, ¬ occAt s old i) :
    strReplace s old new = s := by
  induction s with
  | nil => exact strReplace_nil old new
  | cons c t ih =>
    rw [strReplace_cons_neg (fun hc => h 0 (occAt_zero_iff.mpr hc.2))]
    rw [ih (fun i hi => h (i + 1) (occAt_cons_succ.mpr hi))]

theorem occAt_single_mem {s : Str} {c : Char} {i : Nat} (h : occAt s [c] i) : c ∈ s := by
  have h1 := occAt_get h (k := 0) (by simp)
  rw [Nat.add_zero] at h1
  exact List.get?_mem (by simpa using h1)

theorem strReplace_single_not_mem {c : Char} {new : Str} {s : Str} (h : c ∉ s) :
    strReplace s [c] new = s :=
  strReplace_no_occ s (fun _ hi => h (occAt_single_mem hi))

theorem strReplace_single_append {c : Char} {new : Str} {a b : Str} (ha : c ∉ a) (hb : c ∉ b) :
    strReplace (a ++ c :: b) [c] new = a ++ new ++ b := by
  induction a with
  | nil =>
    simp only [List.nil_append]
    rw [strReplace_pos ⟨by simp, by simp⟩]
    show new ++ strReplace ((c :: b).drop 1) [c] new = new ++ b
    rw [List.drop_succ_cons, List.drop_zero, strReplace_single_not_mem hb]
  | cons x a' ih =>
    have hxc : x ≠ c := fun he => ha (by simp [he])
    rw [List.cons_append, strReplace_cons_neg]
    · rw [ih (fun hm => ha (List.mem_cons_of_mem _ hm))]
      simp
    · rintro ⟨-, htake⟩
      simp only [List.length_cons, List.length_nil, List.take_succ_cons, List.take_zero] at htake
      exact hxc (by simpa using htake)

theorem strReplace_single_empty_eq_filter {c : Char} (s : Str) :
    strReplace s [c] [] = s.filter (fun x => x ≠ c) := by
  induction s with
  | nil => rw [strReplace_nil]; rfl
  | cons x t ih =>
    by_cases hx : x = c
    · subst hx
      rw [strReplace_pos ⟨by simp, by simp⟩]
      show [] ++ strReplace ((x :: t).drop 1) [x] [] = _
      rw [List.drop_succ_cons, List.drop_zero, List.nil_append, ih]
      simp
    · rw [strReplace_cons_neg]
      · rw [ih]
        simp [hx]
      · rintro ⟨-, htake⟩
        simp only [List.length_cons, List.length_nil, List.take_succ_cons, List.take_zero] at htake
        exact hx (by simpa using htake)

/-! ## countNL lemmas -/

theorem countNL_nil : countNL [] = 0 := rfl

theorem countNL_cons (c : Char) (t : Str) :
    countNL (c :: t) = countNL t + (if c = '\n' then 1 else 0) := by
  simp only [countNL, List.foldr]
  split <;> omega

theorem countNL_append (a b : Str) : countNL (a ++ b) = countNL a + countNL b := by
  induction a with
  | nil => simp [countNL_nil]
  | cons c t ih =>
    rw [List.cons_append, countNL_cons, countNL_cons, ih]
    omega

theorem countNL_replace {old new : Str} (ho : countNL old = 0) (hn : countNL new = 0) :
    ∀ s, countNL (strReplace s old new) = countNL s := by
  suffices H : ∀ n s, s.length ≤ n → countNL (strReplace s old new) = countNL s by
    exact fun s => H s.length s le_rfl
  intro n
  induction n with
  | zero =>
    intro s hs
    have hnil : s = [] := List.eq_nil_of_length_eq_zero (by omega)
    subst hnil
    rw [strReplace_nil]
  | succ m ih =>
    intro s hs
    by_cases h : old ≠ [] ∧ s.take old.length = old
    · have hlen : 0 < old.length := List.length_pos.mpr h.1
      have hle : old.length ≤ s.length := take_eq_length_le h.2
      rw [strReplace_pos h, countNL_append, ih _ (by simp [List.length_drop]; omega), hn]
      have hsplit : countNL s = countNL old + countNL (s.drop old.length) := by
        conv_lhs => rw [← List.take_append_drop old.length s]
        rw [countNL_append, h.2]
      omega
    · match s with
      | [] => rw [strReplace_nil]
      | c :: t =>
        rw [strReplace_cons_neg h]
        rw [countNL_cons, countNL_cons, ih t (by simp at hs; omega)]

/-! ## splitGo lemmas -/

theorem splitGo_pos {s sep : Str} (h : sep ≠ [] ∧ s.take sep.length = sep) :
    splitGo s sep = [] :: splitGo (s.drop sep.length) sep := by
  have hlen : 0 < sep.length := List.length_pos.mpr h.1
  have hle : sep.length ≤ s.length := take_eq_length_le h.2
  obtain ⟨m, hm⟩ : ∃ m, s.length = m + 1 := ⟨s.length - 1, by omega⟩
  unfold splitGo
  rw [hm]
  simp only [splitGoF]
  rw [if_pos h]
  congr 1
  exact splitGoF_irrel m _ _ (by simp only [List.length_drop]; omega) le_rfl

theorem splitGo_nil {sep : Str} (hne : sep ≠ []) : splitGo [] sep = [[]] := rfl

theorem splitGo_cons_neg {sep : Str} {c : Char} {t : Str}
    (h : ¬(sep ≠ [] ∧ (c :: t).take sep.length = sep)) :
    splitGo (c :: t) sep =
      match splitGo t sep with
      | [] => [[c]]
      | p :: ps => (c :: p) :: ps := by
  show splitGoF (t.length + 1) (c :: t) sep = _
  simp only [splitGoF]
  rw [if_neg h]
  rfl

theorem splitGo_cons_eq {sep : Str} {c : Char} {t p : Str} {ps : List Str}
    (h : ¬(sep ≠ [] ∧ (c :: t).take sep.length = sep)) (hsp : splitGo t sep = p :: ps) :
    splitGo (c :: t) sep = (c :: p) :: ps := by
  rw [splitGo_cons_neg h, hsp]

theorem splitGo_ne_nil {sep : Str} (hne : sep ≠ []) (s : Str) : splitGo s sep ≠ [] := by
  by_cases h : sep ≠ [] ∧ s.take sep.length = sep
  · rw [splitGo_pos h]; simp
  · match s with
    | [] => rw [splitGo_nil hne]; simp
    | c :: t =>
      rw [splitGo_cons_neg h]
      cases splitGo t sep <;> simp

theorem strIntercalate_cons₂ (sep x y : Str) (r : List Str) :
    strIntercalate sep (x :: y :: r) = x ++ sep ++ strIntercalate sep (y :: r) := rfl

theorem splitGo_intercalate {sep : Str} (hne : sep ≠ []) :
    ∀ s, strIntercalate sep (splitGo s sep) = s := by
  suffices H : ∀ n s, s.length ≤ n → strIntercalate sep (splitGo s sep) = s by
    exact fun s => H s.length s le_rfl
  intro n
  induction n with
  | zero =>
    intro s hs
    have hnil : s = [] := List.eq_nil_of_length_eq_zero (by omega)
    subst hnil
    rw [splitGo_nil hne]
    rfl
  | succ m ih =>
    intro s hs
    by_cases h : sep ≠ [] ∧ s.take sep.length = sep
    · have hlen : 0 < sep.length := List.length_pos.mpr h.1
      have hle : sep.length ≤ s.length := take_eq_length_le h.2
      rw [splitGo_pos h]
      cases hsp : splitGo (s.drop sep.length) sep with
      | nil => exact absurd hsp (splitGo_ne_nil hne _)
      | cons p ps =>
        have ihd := ih (s.drop sep.length) (by simp [List.length_drop]; omega)
        rw [hsp] at ihd
        rw [strIntercalate_cons₂, ihd, List.nil_append]
        conv_rhs => rw [← List.take_append_drop sep.length s]
        rw [h.2]
    · match s with
      | [] => rw [splitGo_nil hne]; rfl
      | c :: t =>
        cases hsp : splitGo t sep with
        | nil => exact absurd hsp (splitGo_ne_nil hne _)
        | cons p ps =>
          have ihd := ih t (by simp at hs; omega)
          rw [hsp] at ihd
          rw [splitGo_cons_eq h hsp]
          cases ps with
          | nil =>
            show c :: p = c :: t
            rw [show p = strIntercalate sep [p] from rfl, ihd]
          | cons q ps' =>
            rw [strIntercalate_cons₂]
            rw [strIntercalate_cons₂] at ihd
            rw [← ihd]
            simp

theorem splitGo_replace {sep new : Str} (hne : sep ≠ []) :
    ∀ s, strReplace s sep new = strIntercalate new (splitGo s sep) := by
  suffices H : ∀ n s, s.length ≤ n →
      strReplace s sep new = strIntercalate new (splitGo s sep) by
    exact fun s => H s.length s le_rfl
  intro n
  induction n with
  | zero =>
    intro s hs
    have hnil : s = [] := List.eq_nil_of_length_eq_zero (by omega)
    subst hnil
    rw [strReplace_nil, splitGo_nil hne]
    rfl
  | succ m ih =>
    intro s hs
    by_cases h : sep ≠ [] ∧ s.take sep.length = sep
    · have hlen : 0 < sep.length := List.length_pos.mpr h.1
      have hle : sep.length ≤ s.length := take_eq_length_le h.2
      rw [strReplace_pos h, splitGo_pos h]
      cases hsp : splitGo (s.drop sep.length) sep with
      | nil => exact absurd hsp (splitGo_ne_nil hne _)
      | cons p ps =>
        have ihd := ih (s.drop sep.length) (by simp [List.length_drop]; omega)
        rw [hsp] at ihd
        rw [ihd, strIntercalate_cons₂, List.nil_append]
    · match s with
      | [] => rw [strReplace_nil, splitGo_nil hne]; rfl
      | c :: t =>
        cases hsp : splitGo t sep with
        | nil => exact absurd hsp (splitGo_ne_nil hne _)
        | cons p ps =>
          have ihd := ih t (by simp at hs; omega)
          rw [hsp] at ihd
          rw [strReplace_cons_neg h, splitGo_cons_eq h hsp]
          show c :: strReplace t sep new = strIntercalate new ((c :: p) :: ps)
          rw [ihd]
          cases ps with
          | nil => rfl
          | cons q ps' =>
            rw [strIntercalate_cons₂, strIntercalate_cons₂]
            simp

theorem splitGo_no_occ {sep : Str} (hne : sep ≠ []) :
    ∀ s, ∀ p ∈ splitGo s sep, ∀ i, ¬ occAt p sep i := by
  suffices H : ∀ n s, s.length ≤ n → ∀ p ∈ splitGo s sep, ∀ i, ¬ occAt p sep i by
    exact fun s => H s.length s le_rfl
  intro n
  induction n with
  | zero =>
    intro s hs p hp i
    have hnil : s = [] := List.eq_nil_of_length_eq_zero (by omega)
    subst hnil
    rw [splitGo_nil hne] at hp
    have hp0 : p = ([] : Str) := by simpa using hp
    subst hp0
    intro hocc
    exact hne (by simpa [occAt] using hocc.symm)
  | succ m ih =>
    intro s hs p hp i
    by_cases h : sep ≠ [] ∧ s.take sep.length = sep
    · have hlen : 0 < sep.length := List.length_pos.mpr h.1
      have hle : sep.length ≤ s.length := take_eq_length_le h.2
      rw [splitGo_pos h] at hp
      rcases List.mem_cons.mp hp with rfl | hp2
      · intro hocc
        exact hne (by simpa [occAt] using hocc.symm)
      · exact ih (s.drop sep.length) (by simp [List.length_drop]; omega) p hp2 i
    · match s, hs, hp with
      | [], _, hp =>
        rw [splitGo_nil hne] at hp
        have hp0 : p = ([] : Str) := by simpa using hp
        subst hp0
        intro hocc
        exact hne (by simpa [occAt] using hocc.symm)
      | c :: t, hs, hp =>
        have htake : ¬ (c :: t).take sep.length = sep := fun hx => h ⟨hne, hx⟩
        cases hsp : splitGo t sep with
        | nil => exact absurd hsp (splitGo_ne_nil hne _)
        | cons p0 ps =>
          rw [splitGo_cons_eq h hsp] at hp
          rcases List.mem_cons.mp hp with rfl | hp2
          · intro hocc
            cases i with
            | zero =>
              -- an occurrence at the head of the head piece would have been
              -- an occurrence at the head of `c :: t`
              have hlen0 : sep.length ≤ (c :: p0).length := take_eq_length_le hocc
              have hpre : ∃ r, t = p0 ++ r := by
                have hint := splitGo_intercalate hne t
                rw [hsp] at hint
                cases ps with
                | nil => exact ⟨[], by simpa using hint.symm⟩
                | cons q ps' =>
                  rw [strIntercalate_cons₂] at hint
                  exact ⟨sep ++ strIntercalate sep (q :: ps'), by simp [← hint]⟩
              rcases hpre with ⟨r, rfl⟩
              apply htake
              have hocc0 : (c :: p0).take sep.length = sep := by
                simpa [occAt] using hocc
              calc (c :: (p0 ++ r)).take sep.length
                  = ((c :: p0) ++ r).take sep.length := by simp
                _ = (c :: p0).take sep.length := List.take_append_of_le_length hlen0
                _ = sep := hocc0
            | succ j =>
              exact ih t (by simp at hs; omega) p0 (by rw [hsp]; simp) j
                (occAt_cons_succ.mp hocc)
          · exact ih t (by simp at hs; omega) p (by rw [hsp]; simp [hp2]) i

/-! ## pySlice lemmas -/

theorem sliceNorm_nonneg {len : Nat} {i : Int} (h : 0 ≤ i) (hle : i ≤ (len : Int)) :
    sliceNorm len i = i.toNat := by
  unfold sliceNorm
  rw [if_neg (by omega)]
  omega

theorem sliceNorm_neg_one {len : Nat} : sliceNorm len (-1) = len - 1 := by
  unfold sliceNorm
  rw [if_pos (by omega)]
  omega

theorem pySlice_zero {s : Str} {b : Int} (hb : 0 ≤ b) (hble : b ≤ (s.length : Int)) :
    pySlice s 0 b = s.take b.toNat := by
  unfold pySlice
  rw [sliceNorm_nonneg hb hble, sliceNorm_nonneg (by omega) (by omega)]
  simp

theorem pySlice_neg_one {s : Str} {a : Int} (ha : 0 ≤ a) (hal : a ≤ (s.length : Int)) :
    pySlice s a (-1) = (s.drop a.toNat).dropLast := by
  unfold pySlice
  rw [sliceNorm_neg_one, sliceNorm_nonneg ha hal, List.dropLast_eq_take, List.drop_take]
  congr 1
  simp only [List.length_drop]
  omega

/-! ## fillEmpty: the placeholder is the input stripped of braces and newlines -/

theorem fillRef_eq (codes : Str) :
    fillRef codes = "  //".toList ++
      codes.filter (fun x => x ≠ '\n' && x ≠ '\x7d' && x ≠ '\x7b') := by
  unfold fillRef
  rw [strReplace_single_empty_eq_filter, strReplace_single_empty_eq_filter,
    strReplace_single_empty_eq_filter, List.filter_filter, List.filter_filter]

/-- C7: for a captured span of exactly 1 or 2 lines with a unique closing
brace, `fillEmpty` inserts the placeholder comment line (the span stripped
of brace characters and newlines) just before the closing brace, and
reports a delta of exactly 2 in both cases. -/
theorem C7_fillEmpty_delta (codes a b : Str) (ln : Int) (hln : ln = 1 ∨ ln = 2)
    (hsplit : codes = a ++ '\x7d' :: b) (ha : '\x7d' ∉ a) (hb : '\x7d' ∉ b) :
    fillEmpty codes ln =
      (a ++ '\n' :: ("  //".toList ++
          codes.filter (fun x => x ≠ '\n' && x ≠ '\x7d' && x ≠ '\x7b') ++
          '\n' :: '\x7d' :: b), 2) := by
  have hone : ∀ cs : Str, fillEmpty cs 1 = fillStep cs := by
    intro cs; simp [fillEmpty]
  have htwo : ∀ cs : Str, fillEmpty cs 2 = fillStep cs := by
    intro cs; simp [fillEmpty]
  have hstep : fillStep codes =
      (a ++ '\n' :: ("  //".toList ++
          codes.filter (fun x => x ≠ '\n' && x ≠ '\x7d' && x ≠ '\x7b') ++
          '\n' :: '\x7d' :: b), 2) := by
    unfold fillStep
    rw [fillRef_eq]
    set R := codes.filter (fun x => x ≠ '\n' && x ≠ '\x7d' && x ≠ '\x7b') with hR
    rw [hsplit, strReplace_single_append ha hb]
    simp
  rcases hln with rfl | rfl
  · rw [hone, hstep]
  · rw [htwo, hstep]

/-- C7 witness: a 1-line empty function span. -/
theorem C7_fillEmpty_delta_witness :
    fillEmpty "func f() \x7b\x7d\n".toList 1 =
      ("func f() \x7b\n  //func f() \n\x7d\n".toList, 2) := by
  have h := C7_fillEmpty_delta "func f() \x7b\x7d\n".toList "func f() \x7b".toList "\n".toList 1
    (Or.inl rfl) (by decide) (by decide) (by decide)
  rw [h]
  decide

/-! ## Update lemmas for the state maps -/

theorem update_same {β : Type} (f : Str → β) (k : Str) (v : β) : update f k v k = v := by
  simp [update]

theorem update_ne {β : Type} (f : Str → β) {k q : Str} (v : β) (h : q ≠ k) :
    update f k v q = f q := by
  simp [update, h]

/-! ## C10: the exception renamer -/

/-- C10: if the file contains `RuntimeException(`, `solve112` writes back the
text with every occurrence renamed to `MultiPathRuntimeError(` (witnessed by
the greedy decomposition: reassembling the pieces with either string gives
the renamed text, resp. the original, and no piece retains an occurrence),
with the wrapper boilerplate inserted immediately before the last `}` of the
renamed text and the final character dropped; a file without the substring
is left unchanged. -/
theorem C10_solve112 (p : Finding) (st : St) (path codes nc : Str) (epos : Int)
    (hpath : path = replaceFirst p.resource slashStr [])
    (hcodes : codes = st.files path)
    (hnc : nc = strReplace codes reStr mpStr)
    (hepos : epos = pyRfind nc ['\x7d']) :
    (pyFind codes reStr < 0 → solve112 p st = st) ∧
    (0 ≤ pyFind codes reStr → 0 ≤ epos →
      ((solve112 p st).files path =
          nc.take epos.toNat ++ strJavaException ++ (nc.drop epos.toNat).dropLast ∧
        occAt nc ['\x7d'] epos.toNat ∧
        (∀ j, epos.toNat < j → ¬ occAt nc ['\x7d'] j) ∧
        nc = strIntercalate mpStr (splitGo codes reStr) ∧
        strIntercalate reStr (splitGo codes reStr) = codes ∧
        (∀ pc ∈ splitGo codes reStr, pyFind pc reStr < 0) ∧
        (∀ q, q ≠ path → (solve112 p st).files q = st.files q) ∧
        (solve112 p st).ledger = st.ledger ∧
        (solve112 p st).testFiles = st.testFiles)) := by
  subst hpath
  subst hcodes
  subst hnc
  subst hepos
  have hre : reStr ≠ [] := by decide
  constructor
  · intro h
    simp only [solve112]
    rw [if_pos h]
  · intro h1 h2
    have hn0 : ¬ pyFind (st.files (replaceFirst p.resource slashStr [])) reStr < 0 :=
      not_lt.mpr h1
    have hle := @pyRfind_le_length
      (strReplace (st.files (replaceFirst p.resource slashStr [])) reStr mpStr)
      ['\x7d']
    refine ⟨?_, pyRfind_occ h2, ?_, ?_, ?_, ?_, ?_, ?_, ?_⟩
    · simp only [solve112]
      rw [if_neg hn0]
      dsimp only
      rw [update_same, pySlice_zero h2 hle, pySlice_neg_one h2 hle]
    · intro j hj hocc
      rcases le_or_lt j (strReplace (st.files (replaceFirst p.resource slashStr []))
          reStr mpStr).length with hjle | hjgt
      · refine rfindAux_max hjle ?_ hocc
        show pyRfind (strReplace (st.files (replaceFirst p.resource slashStr []))
          reStr mpStr) ['\x7d'] < (j : Int)
        omega
      · have := occAt_le_length (by decide) hocc
        omega
    · exact splitGo_replace hre _
    · exact splitGo_intercalate hre _
    · intro pc hpc
      exact pyFind_neg_iff.mpr (splitGo_no_occ hre _ pc hpc)
    · intro q hq
      simp only [solve112]
      rw [if_neg hn0]
      dsimp only
      rw [update_ne _ _ hq]
    · simp only [solve112]
      rw [if_neg hn0]
    · simp only [solve112]
      rw [if_neg hn0]

def javaContent : Str :=
  "class A \x7b void f()\x7b throw new RuntimeException(x); \x7d \x7d\n".toList

def pJava : Finding :=
  { resource := "/A.java".toList, message := [], code := "java:S112".toList,
    startLineNumber := 1 }

def stJava : St :=
  { files := fun q => if q = "A.java".toList then javaContent else [],
    ledger := fun _ => 0, testFiles := [] }

/-! ## Shared concrete examples -/

/-- A Go file with one wrappable nested conditional. -/
def goContent : Str :=
  "func a() \x7b\n\t\t\tif b \x7b\n\t\t\tx\n\t\t\t\x7d\n\x7d\n".toList

/-- A Go file whose nested conditional has no closing brace at its column. -/
def goBadContent : Str :=
  "func a() \x7b\n\t\t\tif b \x7b\n\t\t\tx\n\x7d\n".toList

/-- A Go file with a duplicated string literal. -/
def litContent : Str := "x := \"hi\"\ny := \"hi\"\n".toList

def pGo3776 : Finding :=
  { resource := "a.go".toList, message := [], code := "go:S3776".toList,
    startLineNumber := 1 }

def pGoBad3776 : Finding :=
  { resource := "bad.go".toList, message := [], code := "go:S3776".toList,
    startLineNumber := 1 }

def pGo1192 : Finding :=
  { resource := "b.go".toList,
    message := "Define a constant instead of duplicating this literal \"hi\" 3 times.".toList,
    code := "go:S1192".toList, startLineNumber := 1 }

def stGo : St :=
  { files := fun q =>
      if q = "a.go".toList then goContent
      else if q = "b.go".toList then litContent
      else if q = "bad.go".toList then goBadContent
      else [],
    ledger := fun _ => 0, testFiles := [] }

/-! ## C1: the main dispatch loop -/

/-- C1 (amended): the main loop dispatches only findings whose rule code is
`go:S1192`, each to the literal-extraction driver; a run over any findings
list equals the run over just its `go:S1192` findings, and every other rule
code is skipped with the state unchanged. -/
theorem C1_main_dispatch (ps : List (Finding × Str)) (st : St) :
    runMain ps st = runMain (ps.filter (fun pr => pr.1.code = goS1192)) st ∧
    (∀ pr s2, pr.1.code = goS1192 → mainStep pr s2 = solve1192 pr.1 pr.2 s2) ∧
    (∀ pr s2, pr.1.code ≠ goS1192 → mainStep pr s2 = s2) := by
  refine ⟨?_, ?_, ?_⟩
  · induction ps generalizing st with
    | nil => rfl
    | cons pr r ih =>
      by_cases hc : pr.1.code = goS1192
      · rw [List.filter_cons_of_pos (by simpa using hc)]
        show runMain r (mainStep pr st) = runMain (r.filter _) (mainStep pr st)
        exact ih (mainStep pr st)
      · rw [List.filter_cons_of_neg (by simpa using hc)]
        show runMain r (mainStep pr st) = _
        have hst : mainStep pr st = st := by simp [mainStep, hc]
        rw [hst]
        exact ih st
  · intro pr s2 hc
    simp [mainStep, hc]
  · intro pr s2 hc
    simp [mainStep, hc]

/-- C1 witness: a `go:S1192` finding is dispatched to `solve1192`; a
`go:S3776` finding is skipped. -/
theorem C1_main_dispatch_witness :
    mainStep (pGo1192, "0123".toList) stGo = solve1192 pGo1192 "0123".toList stGo ∧
    mainStep (pGo3776, "0123".toList) stGo = stGo := by
  exact ⟨(C1_main_dispatch [] stGo).2.1 _ _ (by decide),
    (C1_main_dispatch [] stGo).2.2 _ _ (by decide)⟩

/-- C1 counterexample: a `go:S3776` finding is not handled by the
complexity-suppression driver — the main loop leaves the file and its
ledger entry untouched, although `solve3776` would rewrite the file and
record a delta of 2. -/
theorem C1_counterexample :
    (runMain [(pGo3776, "0123".toList)] stGo).files "a.go".toList =
        stGo.files "a.go".toList ∧
    (runMain [(pGo3776, "0123".toList)] stGo).ledger "a.go".toList = 0 ∧
    (solve3776Full pGo3776 stGo).map (fun r => (r.1.ledger "a.go".toList, r.2)) =
        some (2, some 2) ∧
    (solve3776Full pGo3776 stGo).map (fun r => r.1.files "a.go".toList) ≠
        some (stGo.files "a.go".toList) := by
  exact ⟨by decide, by decide, by decide, by decide⟩

/-! ## C2: the function-boundary locator -/

theorem pyGet_nonneg {α : Type} {l : List α} {i : Int} (h : 0 ≤ i) :
    pyGet l i = l.get? i.toNat := by
  unfold pyGet
  rw [if_pos h]

theorem pyGet_nat {α : Type} (l : List α) (i : Nat) : pyGet l (i : Int) = l.get? i := by
  rw [pyGet_nonneg (by omega)]
  simp

/-- Specification of the backward scan: it returns the nearest
`"func "`-containing line index at or below the entry index, or `-1`. -/
theorem scanBack_spec (lines : List Str) :
    ∀ n, n < lines.length →
      (scanBackFunc lines n = some (-1) ∧
        ∀ i, i ≤ n → ¬ 0 ≤ pyFind (lineAt lines i) funcStr) ∨
      (∃ k : Nat, k ≤ n ∧ scanBackFunc lines n = some (k : Int) ∧
        0 ≤ pyFind (lineAt lines k) funcStr ∧
        ∀ i, k < i → i ≤ n → ¬ 0 ≤ pyFind (lineAt lines i) funcStr) := by
  intro n
  induction n with
  | zero =>
    intro h0
    obtain ⟨l, hl⟩ : ∃ l, lines.get? 0 = some l :=
      ⟨lines.get ⟨0, h0⟩, List.get?_eq_get h0⟩
    have hla : lineAt lines 0 = l := by unfold lineAt; rw [hl]; rfl
    by_cases hf : 0 ≤ pyFind l funcStr
    · right
      exact ⟨0, le_rfl, by simp only [scanBackFunc]; rw [hl]; simp [hf], by rwa [hla],
        fun i hi1 hi2 => by omega⟩
    · left
      refine ⟨by simp only [scanBackFunc]; rw [hl]; simp [hf], ?_⟩
      intro i hi
      have hi0 : i = 0 := by omega
      subst hi0
      rwa [hla]
  | succ m ih =>
    intro hlt
    obtain ⟨l, hl⟩ : ∃ l, lines.get? (m + 1) = some l :=
      ⟨lines.get ⟨m + 1, hlt⟩, List.get?_eq_get hlt⟩
    have hla : lineAt lines (m + 1) = l := by unfold lineAt; rw [hl]; rfl
    by_cases hf : 0 ≤ pyFind l funcStr
    · right
      exact ⟨m + 1, le_rfl, by simp only [scanBackFunc]; rw [hl]; simp [hf], by rwa [hla],
        fun i hi1 hi2 => by omega⟩
    · have hstep : scanBackFunc lines (m + 1) = scanBackFunc lines m := by
        simp only [scanBackFunc]
        rw [hl]
        simp [hf]
      rcases ih (by omega) with ⟨hsb, hnone⟩ | ⟨k, hk, hsb, hfk, hmax⟩
      · left
        refine ⟨hstep ▸ hsb, ?_⟩
        intro i hi
        rcases Nat.lt_or_ge i (m + 1) with hi2 | hi2
        · exact hnone i (by omega)
        · have : i = m + 1 := by omega
          subst this
          rwa [hla]
      · right
        refine ⟨k, by omega, hstep ▸ hsb, hfk, ?_⟩
        intro i hi1 hi2
        rcases Nat.lt_or_ge i (m + 1) with hi3 | hi3
        · exact hmax i hi1 (by omega)
        · have : i = m + 1 := by omega
          subst this
          rwa [hla]

/-- The forward scan always returns on a file whose lines are nonempty
(as `readlines` output always is), at a position at or after the entry. -/
theorem findCodesFwdF_some (lines : List Str) (hne : ∀ l ∈ lines, l ≠ []) :
    ∀ fuel (pos : Int) codes, ((lines.length : Int) - pos).toNat ≤ fuel → 0 ≤ pos →
      ∃ r, findCodesFwdF lines fuel pos codes = some r ∧ pos ≤ r.1 := by
  intro fuel
  induction fuel with
  | zero =>
    intro pos codes hfuel hpos
    exact ⟨(pos, codes), rfl, le_rfl⟩
  | succ f ih =>
    intro pos codes hfuel hpos
    simp only [findCodesFwdF]
    by_cases hin : pos < (lines.length : Int)
    · rw [if_pos hin]
      obtain ⟨l, hl⟩ : ∃ l, lines.get? pos.toNat = some l :=
        ⟨lines.get ⟨pos.toNat, by omega⟩, List.get?_eq_get (by omega)⟩
      have hlm : l ∈ lines := List.get?_mem hl
      have hlne : l ≠ [] := hne l hlm
      obtain ⟨c, t, rfl⟩ : ∃ c t, l = c :: t := by
        cases l with
        | nil => exact absurd rfl hlne
        | cons c t => exact ⟨c, t, rfl⟩
      have h0 : pyGet (c :: t) (0 : Int) = some c := rfl
      simp only [pyGet_nonneg hpos, hl, h0]
      by_cases hc : c = '\x7d'
      · rw [if_pos hc]
        exact ⟨(pos, codes ++ (c :: t)), rfl, le_rfl⟩
      · rw [if_neg hc]
        obtain ⟨r, hr, hle⟩ := ih (pos + 1) (codes ++ (c :: t)) (by omega) (by omega)
        exact ⟨r, hr, by omega⟩
    · rw [if_neg hin]
      exact ⟨(pos, codes), rfl, le_rfl⟩

/-- C2: `findCodes` scans backward (inclusive) from the candidate index to
the nearest line containing `"func "`; when no such line exists at or below
the candidate, the span-start component it returns is the sentinel `-1`
rather than a valid 0-based line index. -/
theorem C2_findCodes (lines : List Str) (cand : Nat) (hcand : cand < lines.length)
    (hne : ∀ l ∈ lines, l ≠ []) :
    ∃ s ln cs, findCodes lines (cand : Int) = some (s, ln, cs) ∧
      ((∀ i, i ≤ cand → ¬ 0 ≤ pyFind (lineAt lines i) funcStr) → s = -1) ∧
      (∀ j, j ≤ cand → 0 ≤ pyFind (lineAt lines j) funcStr →
        0 ≤ s ∧ s ≤ (cand : Int) ∧ 0 ≤ pyFind (lineAt lines s.toNat) funcStr ∧
        ∀ m : Nat, s < (m : Int) → m ≤ cand → ¬ 0 ≤ pyFind (lineAt lines m) funcStr) := by
  have hlen : 0 < lines.length := by omega
  have htn : ((cand : Int)).toNat = cand := by omega
  simp only [findCodes, if_neg (by omega : ¬ (cand : Int) < 0), htn]
  rcases scanBack_spec lines cand hcand with ⟨hsb, hnone⟩ | ⟨k, hk, hsb, hfk, hmax⟩
  · have hget : pyGet lines (-1 : Int) = lines.get? (lines.length - 1) := by
      unfold pyGet
      rw [if_neg (by omega), if_pos (by omega)]
      congr 1
      omega
    obtain ⟨l, hl⟩ : ∃ l, lines.get? (lines.length - 1) = some l :=
      ⟨lines.get ⟨lines.length - 1, by omega⟩, List.get?_eq_get (by omega)⟩
    simp only [hsb, hget, hl]
    by_cases hbr : 0 < pyFind l ['\x7d']
    · rw [if_pos hbr]
      refine ⟨-1, 1, l, rfl, fun _ => rfl, ?_⟩
      intro j hj hfj
      exact absurd hfj (hnone j hj)
    · rw [if_neg hbr]
      obtain ⟨r, hr, -⟩ := findCodesFwdF_some lines hne
        ((lines.length : Int) - (-1 + 1)).toNat (-1 + 1) l (le_refl _) (by omega)
      have hw : findCodesFwd lines (-1 + 1) l =
          findCodesFwdF lines ((lines.length : Int) - (-1 + 1)).toNat (-1 + 1) l := rfl
      simp only [hw, hr]
      refine ⟨-1, r.1 - (-1) + 1, r.2, ?_, fun _ => rfl, ?_⟩
      · cases r
        rfl
      · intro j hj hfj
        exact absurd hfj (hnone j hj)
  · have hget : pyGet lines ((k : Int)) = lines.get? k := pyGet_nat lines k
    obtain ⟨l, hl⟩ : ∃ l, lines.get? k = some l :=
      ⟨lines.get ⟨k, by omega⟩, List.get?_eq_get (by omega)⟩
    have hla : lineAt lines k = l := by unfold lineAt; rw [hl]; rfl
    simp only [hsb, hget, hl]
    have hconc : ∀ s : Int, s = (k : Int) →
        ((∀ i, i ≤ cand → ¬ 0 ≤ pyFind (lineAt lines i) funcStr) → s = -1) ∧
        (∀ j, j ≤ cand → 0 ≤ pyFind (lineAt lines j) funcStr →
          0 ≤ s ∧ s ≤ (cand : Int) ∧ 0 ≤ pyFind (lineAt lines s.toNat) funcStr ∧
          ∀ m : Nat, s < (m : Int) → m ≤ cand → ¬ 0 ≤ pyFind (lineAt lines m) funcStr) := by
      rintro s rfl
      constructor
      · intro h
        exact absurd (hla ▸ hfk) (h k hk)
      · intro j hj hfj
        have hsk : ((k : Int)).toNat = k := by omega
        refine ⟨by omega, by omega, by rw [hsk, hla]; exact hla ▸ hfk, ?_⟩
        intro m hm1 hm2
        exact hmax m (by omega) hm2
    by_cases hbr : 0 < pyFind l ['\x7d']
    · rw [if_pos hbr]
      exact ⟨k, 1, l, rfl, hconc _ rfl⟩
    · rw [if_neg hbr]
      obtain ⟨r, hr, -⟩ := findCodesFwdF_some lines hne
        ((lines.length : Int) - ((k : Int) + 1)).toNat ((k : Int) + 1) l (le_refl _) (by omega)
      have hw : findCodesFwd lines ((k : Int) + 1) l =
          findCodesFwdF lines ((lines.length : Int) - ((k : Int) + 1)).toNat ((k : Int) + 1) l :=
        rfl
      simp only [hw, hr]
      refine ⟨k, r.1 - k + 1, r.2, ?_, hconc _ rfl⟩
      cases r
      rfl

/-- C2 witness: on a file with no `func ` line the locator returns the
sentinel `-1` as the span start. -/
theorem C2_findCodes_witness :
    (findCodes ["a\n".toList, "b\n".toList] ((1 : Nat) : Int)).map (fun r => r.1) =
      some (-1) := by
  obtain ⟨s, ln, cs, heq, himp, -⟩ :=
    C2_findCodes ["a\n".toList, "b\n".toList] 1 (by decide) (by decide)
  rw [heq, himp (by decide)]
  rfl

/-! ## C3 and C4: the literal extractor -/

theorem occAt_prefix (x sub : Str) : occAt (sub ++ x) sub 0 := by
  unfold occAt
  rw [List.drop_zero, List.take_left]

theorem occAt_append_drop {a b sub : Str} {i : Nat} (hi : a.length ≤ i)
    (h : occAt (a ++ b) sub i) : occAt b sub (i - a.length) := by
  unfold occAt at *
  rw [show i = a.length + (i - a.length) by omega, List.drop_append] at h
  exact h

theorem occAt_head {s sub : Str} {i : Nat} {c : Char} (h : occAt s sub i)
    (hc : sub.get? 0 = some c) : s.get? i = some c := by
  have hpos : 0 < sub.length := by
    cases sub with
    | nil => cases hc
    | cons x t => simp
  have := occAt_get h (k := 0) hpos
  rw [Nat.add_zero, hc] at this
  exact this

theorem extract1192_skip {codes L name : Str} (h : s1192Guard codes L = true) :
    extract1192 codes L name = codes := by
  unfold extract1192
  rw [if_pos h]

theorem extract1192_write {codes L name : Str} (h : s1192Guard codes L = false) :
    extract1192 codes L name = strReplace codes (quoteStr L) name ++ constDecl name L := by
  unfold extract1192
  rw [if_neg (by simp [h])]

/-- C3 (amended): when the file contains the quoted literal and the
idempotency guard does not trip, the extractor replaces every leftmost
non-overlapping quoted occurrence of the literal with the generated name —
the greedy decomposition's pieces reassemble the file, carry no quoted
occurrence, and the rewritten body interleaves them with the name — and
appends exactly one trailing constant declaration. -/
theorem C3_extract1192 (codes L name : Str) (ps : List Str)
    (hq : 0 ≤ pyFind codes (quoteStr L))
    (hg : s1192Guard codes L = false)
    (hps : splitGo codes (quoteStr L) = ps) :
    extract1192 codes L name = strIntercalate name ps ++ constDecl name L ∧
    strIntercalate (quoteStr L) ps = codes ∧
    (∀ pc ∈ ps, pyFind pc (quoteStr L) < 0) := by
  have hne : quoteStr L ≠ [] := by simp [quoteStr]
  refine ⟨?_, ?_, ?_⟩
  · rw [extract1192_write hg, splitGo_replace hne, hps]
  · rw [← hps]
    exact splitGo_intercalate hne _
  · intro pc hpc
    rw [← hps] at hpc
    exact pyFind_neg_iff.mpr (splitGo_no_occ hne _ pc hpc)

/-- C3 witness: a file with two quoted occurrences of the literal. -/
theorem C3_extract1192_witness :
    extract1192 litContent "hi".toList "literal_0123".toList =
      strIntercalate "literal_0123".toList (splitGo litContent (quoteStr "hi".toList)) ++
        constDecl "literal_0123".toList "hi".toList := by
  exact (C3_extract1192 litContent "hi".toList "literal_0123".toList
    (splitGo litContent (quoteStr "hi".toList)) (by decide) (by decide) rfl).1

/-- C3 counterexample: the transform rewrites both quoted occurrences, not
only the first one. -/
theorem C3_counterexample :
    extract1192 litContent "hi".toList "literal_0123".toList ≠
      replaceFirst litContent (quoteStr "hi".toList) "literal_0123".toList ++
        constDecl "literal_0123".toList "hi".toList := by
  decide

/-- No `c` character occurs after position 0 in `"const literal_"` followed
by four digits and `" = \""`. -/
theorem clW_no_c (c1 c2 c3 c4 : Char) (h1 : c1.isDigit = true) (h2 : c2.isDigit = true)
    (h3 : c3.isDigit = true) (h4 : c4.isDigit = true) :
    ∀ i, 1 ≤ i → i < 22 →
      (constLiteralPat ++ ([c1, c2, c3, c4] ++ " = \"".toList)).get? i ≠ some 'c' := by
  intro i hge hlt
  interval_cases i <;> intro hcc
  all_goals
    injection hcc with hcc'
  all_goals
    first
      | exact absurd hcc' (by decide)
      | (rw [hcc'] at h1; exact absurd h1 (by decide))
      | (rw [hcc'] at h2; exact absurd h2 (by decide))
      | (rw [hcc'] at h3; exact absurd h3 (by decide))
      | (rw [hcc'] at h4; exact absurd h4 (by decide))

/-- The tail appended by the extractor contains `"const literal_"` only at
position 0, provided the literal itself does not contain it. -/
theorem declTail_no_cl (L : Str) (c1 c2 c3 c4 : Char) (h1 : c1.isDigit = true)
    (h2 : c2.isDigit = true) (h3 : c3.isDigit = true) (h4 : c4.isDigit = true)
    (hL : pyFind L constLiteralPat < 0) :
    ∀ i, 1 ≤ i →
      ¬ occAt ((constLiteralPat ++ ([c1, c2, c3, c4] ++ " = \"".toList)) ++
          (L ++ '\"' :: ['\n'])) constLiteralPat i := by
  intro i hge hocc
  have hlenA : (constLiteralPat ++ ([c1, c2, c3, c4] ++ " = \"".toList)).length = 22 := by
    simp [constLiteralPat, strGoLiteral]
  rcases lt_or_ge i 22 with hlt | hge22
  · have hc := occAt_head hocc (show constLiteralPat.get? 0 = some 'c' from rfl)
    rw [List.get?_append (by omega)] at hc
    exact clW_no_c c1 c2 c3 c4 h1 h2 h3 h4 i hge hlt hc
  · have h2occ := occAt_append_drop (by omega) hocc
    rcases occAt_append_elim h2occ with ⟨-, hoccL⟩ | ⟨-, hocc2⟩ | ⟨hlt2, hgt2⟩
    · exact (pyFind_neg_iff.mp hL) _ hoccL
    · have := occAt_le_length (by decide) hocc2
      simp [constLiteralPat, strGoLiteral] at this
    · exact absurd (occAt_straddle_mem h2occ hlt2 (by
        simpa [constLiteralPat, strGoLiteral] using hgt2)) (by decide)

/-- C4 (amended): the literal extractor is idempotent for every literal
that does not itself contain the substring `"const literal_"`: a second
run on the output of a first run (with generated names `literal_` + four
digits) trips the guard and leaves the file unchanged. -/
theorem C4_extract_idempotent (codes L n2 : Str) (c1 c2 c3 c4 : Char)
    (hL : pyFind L constLiteralPat < 0)
    (hd1 : c1.isDigit = true) (hd2 : c2.isDigit = true) (hd3 : c3.isDigit = true)
    (hd4 : c4.isDigit = true) :
    extract1192 (extract1192 codes L (strGoLiteral ++ [c1, c2, c3, c4])) L n2 =
      extract1192 codes L (strGoLiteral ++ [c1, c2, c3, c4]) := by
  cases hg : s1192Guard codes L with
  | true => rw [extract1192_skip hg, extract1192_skip hg]
  | false =>
    rw [extract1192_write hg]
    set A : Str := constLiteralPat ++ ([c1, c2, c3, c4] ++ " = \"".toList) with hA
    set R : Str := strReplace codes (quoteStr L) (strGoLiteral ++ [c1, c2, c3, c4]) with hRdef
    have hdecl : constDecl (strGoLiteral ++ [c1, c2, c3, c4]) L =
        '\n' :: (A ++ (L ++ '\"' :: ['\n'])) := by
      have hq : ("\"\n".toList : Str) = '\"' :: ['\n'] := rfl
      simp [constDecl, hA, constLiteralPat, strGoLiteral, hq, List.append_assoc]
    have hlenA : A.length = 22 := by
      simp [hA, constLiteralPat, strGoLiteral]
    have hoccT : occAt (R ++ constDecl (strGoLiteral ++ [c1, c2, c3, c4]) L)
        constLiteralPat (R.length + 1) := by
      rw [hdecl]
      refine occAt_append_right (occAt_cons_succ.mpr ?_)
      rw [hA, List.append_assoc]
      exact occAt_prefix _ _
    have hmaxT : ∀ j, R.length + 1 < j →
        ¬ occAt (R ++ constDecl (strGoLiteral ++ [c1, c2, c3, c4]) L) constLiteralPat j := by
      intro j hj hocc
      rw [hdecl] at hocc
      have hstep := occAt_append_drop (by omega) hocc
      obtain ⟨k, hk⟩ : ∃ k, j - R.length = k + 1 := ⟨j - R.length - 1, by omega⟩
      rw [hk] at hstep
      exact declTail_no_cl L c1 c2 c3 c4 hd1 hd2 hd3 hd4 hL k (by omega)
        (occAt_cons_succ.mp hstep)
    have hrfcl : pyRfind (R ++ constDecl (strGoLiteral ++ [c1, c2, c3, c4]) L)
        constLiteralPat = ((R.length + 1 : Nat) : Int) :=
      pyRfind_eq_of (by decide) hoccT hmaxT
    have hoccL : occAt (R ++ constDecl (strGoLiteral ++ [c1, c2, c3, c4]) L) L
        (R.length + 23) := by
      rw [hdecl]
      have hp : occAt (L ++ '\"' :: ['\n']) L 0 := occAt_prefix _ _
      have h22 : occAt (A ++ (L ++ '\"' :: ['\n'])) L 22 := by
        have := occAt_append_right (a := A) hp
        rw [hlenA] at this
        simpa using this
      have h23 : occAt ('\n' :: (A ++ (L ++ '\"' :: ['\n']))) L 23 := by
        rw [show (23 : Nat) = 22 + 1 from rfl]
        exact occAt_cons_succ.mpr h22
      exact occAt_append_right h23
    have hlenF : (R ++ constDecl (strGoLiteral ++ [c1, c2, c3, c4]) L).length =
        R.length + 25 + L.length := by
      rw [hdecl]
      simp only [List.length_append, List.length_cons]
      rw [hlenA]
      simp
      omega
    have hgeL : ((R.length + 23 : Nat) : Int) ≤
        pyRfind (R ++ constDecl (strGoLiteral ++ [c1, c2, c3, c4]) L) L := by
      apply pyRfind_ge hoccL
      omega
    have hguard2 : s1192Guard (R ++ constDecl (strGoLiteral ++ [c1, c2, c3, c4]) L) L =
        true := by
      unfold s1192Guard
      apply decide_eq_true
      right
      rw [hrfcl]
      constructor
      · push_cast
        omega
      · push_cast at hgeL ⊢
        omega
    rw [extract1192_skip hguard2]

/-- C4 witness: a normal literal extraction, run twice, is a no-op the
second time. -/
theorem C4_extract_idempotent_witness :
    extract1192 (extract1192 "x := \"hi\"".toList "hi".toList
        (strGoLiteral ++ ['0', '1', '2', '3'])) "hi".toList "literal_4567".toList =
      extract1192 "x := \"hi\"".toList "hi".toList (strGoLiteral ++ ['0', '1', '2', '3']) := by
  exact C4_extract_idempotent "x := \"hi\"".toList "hi".toList "literal_4567".toList
    '0' '1' '2' '3' (by decide) (by decide) (by decide) (by decide) (by decide)

/-- C4 counterexample: for a literal containing `"const literal_"` the
second run modifies the file again — `extract(extract(f, L), L) ≠
extract(f, L)`. -/
theorem C4_counterexample :
    extract1192 (extract1192 "\"Xconst literal_\"".toList "Xconst literal_".toList
        "literal_0123".toList) "Xconst literal_".toList "literal_4567".toList ≠
      extract1192 "\"Xconst literal_\"".toList "Xconst literal_".toList
        "literal_0123".toList := by
  decide

/-! ## C6: the block reducer's line accounting -/

theorem sjGo_stop {lines : List Str} {endB index : Int} (h : ¬ index < endB) :
    sjGo lines endB index = [] := by
  unfold sjGo
  rw [show (endB - index).toNat = 0 by omega]
  rfl

theorem sjGo_step {lines : List Str} {endB index : Int} (h : index < endB) :
    sjGo lines endB index = ((pyGet lines index).getD []) ++ sjGo lines endB (index + 1) := by
  unfold sjGo
  obtain ⟨m, hm⟩ : ∃ m, (endB - index).toNat = m + 1 := ⟨(endB - index).toNat - 1, by omega⟩
  rw [hm]
  simp only [sjGoF]
  rw [if_pos h, show (endB - (index + 1)).toNat = m by omega]

theorem sjGo_split (lines : List Str) :
    ∀ (b a c : Int), a ≤ b → b ≤ c →
      sjGo lines c a = sjGo lines b a ++ sjGo lines c b := by
  intro b
  suffices H : ∀ n (a c : Int), (b - a).toNat ≤ n → a ≤ b → b ≤ c →
      sjGo lines c a = sjGo lines b a ++ sjGo lines c b by
    exact fun a c h1 h2 => H (b - a).toNat a c le_rfl h1 h2
  intro n
  induction n with
  | zero =>
    intro a c hn h1 h2
    have hab : a = b := by omega
    subst hab
    rw [show sjGo lines a a = [] from sjGo_stop (by omega)]
    rfl
  | succ m ih =>
    intro a c hn h1 h2
    rcases eq_or_lt_of_le h1 with rfl | hab
    · rw [show sjGo lines a a = [] from sjGo_stop (by omega)]
      rfl
    · rw [sjGo_step (by omega : a < c), sjGo_step (by omega : a < b),
        ih (a + 1) c (by omega) (by omega) h2, List.append_assoc]

/-- `findEndIf`'s scan (on success) consumes exactly the lines from its
entry index up to and including the matched closing line, and reports
their count offset by its entry counter. -/
theorem findEndIfGoF_consumed (lines : List Str) (col endB : Int) :
    ∀ fuel (index : Int) (codes0 : Str) (if0 : Int) cs k,
      findEndIfGoF lines col endB fuel index codes0 if0 = some (cs, k) → 0 ≤ k →
      ∃ m : Nat, k = if0 + m ∧ (index + m) < endB ∧
        cs = codes0 ++ sjGo lines (index + m + 1) index := by
  intro fuel
  induction fuel with
  | zero =>
    intro index codes0 if0 cs k h hk
    simp only [findEndIfGoF] at h
    have h2 := Option.some.inj h
    simp only [Prod.mk.injEq] at h2
    omega
  | succ f ih =>
    intro index codes0 if0 cs k h hk
    simp only [findEndIfGoF] at h
    by_cases hin : index < endB
    · rw [if_pos hin] at h
      cases hget : pyGet lines index with
      | none =>
        simp only [hget] at h
        exact Option.noConfusion h
      | some l =>
        simp only [hget] at h
        by_cases hcond : col < (l.length : Int) ∧ pyGet l col = some '\x7d' ∧
            pyFind l elseStr < 0 ∧ pyFind l slashSlash < 0
        · rw [if_pos hcond] at h
          have h2 := Option.some.inj h
          simp only [Prod.mk.injEq] at h2
          obtain ⟨hcs, hk0⟩ := h2
          refine ⟨0, by omega, by omega, ?_⟩
          rw [← hcs]
          congr 1
          have he : index + ((0 : Nat) : Int) + 1 = index + 1 := by push_cast ; ring
          rw [he, sjGo_step (show index < index + 1 by omega), hget,
            sjGo_stop (show ¬ index + 1 < index + 1 by omega)]
          simp
        · rw [if_neg hcond] at h
          obtain ⟨m', hk', hlt', hcs'⟩ := ih (index + 1) (codes0 ++ l) (if0 + 1) cs k h hk
          refine ⟨m' + 1, by omega, by omega, ?_⟩
          have he : index + (((m' + 1 : Nat)) : Int) + 1 = index + 1 + m' + 1 := by
            push_cast ; ring
          rw [he, hcs', sjGo_step (show index < index + 1 + (m' : Int) + 1 by omega), hget]
          simp [List.append_assoc]
    · rw [if_neg hin] at h
      have h2 := Option.some.inj h
      simp only [Prod.mk.injEq] at h2
      omega

/-- The loop of `reduceComplexity`, on success, wraps some number of blocks,
adding one opening and one closing comment line per block: the recorded
delta is twice the block count and the output's newline count exceeds the
traversed span's by the same amount. -/
theorem rcGoF_spec (lines : List Str) (start line_num : Int) :
    ∀ fuel (index : Int) (acc : Str) (nl : Int) (blocks : Nat) r,
      (start + line_num - index).toNat ≤ fuel →
      rcGoF lines start line_num fuel index acc nl blocks = some r →
      r.status = 1 →
      blocks ≤ r.blocks ∧
      r.newLines = nl + 2 * ((r.blocks : Int) - (blocks : Int)) ∧
      countNL r.code = countNL acc + countNL (sjGo lines (start + line_num) index) +
        2 * (r.blocks - blocks) := by
  intro fuel
  induction fuel with
  | zero =>
    intro index acc nl blocks r hfuel h hs
    simp only [rcGoF] at h
    obtain rfl : RCRes.mk acc 1 nl blocks = r := Option.some.inj h
    refine ⟨le_rfl, by simp, ?_⟩
    rw [sjGo_stop (by omega)]
    simp [countNL_nil]
  | succ f ih =>
    intro index acc nl blocks r hfuel h hs
    simp only [rcGoF] at h
    by_cases hin : index < start + line_num
    · rw [if_pos hin] at h
      cases hget : pyGet lines index with
      | none =>
        simp only [hget] at h
        exact Option.noConfusion h
      | some l =>
        simp only [hget] at h
        by_cases hq1 : 3 ≤ pyFind l ifStr ∧ pyFind l elseSpStr < 0 ∧ pyFind l slashSlash < 0
        · rw [if_pos hq1] at h
          cases hprev : pyGet lines (index - 1) with
          | none =>
            simp only [hprev] at h
            exact Option.noConfusion h
          | some prev =>
            simp only [hprev] at h
            by_cases hq2 : pyFind prev openCmt < 0
            · rw [if_pos hq2] at h
              cases hfe : findEndIf lines (pyFind l ifStr) index (start + line_num) with
              | none =>
                simp only [hfe] at h
                exact Option.noConfusion h
              | some pr =>
                obtain ⟨codes, ifLines⟩ := pr
                simp only [hfe] at h
                by_cases hneg : ifLines < 0
                · rw [if_pos hneg] at h
                  obtain rfl : RCRes.mk (acc ++ tabs (pyFind l ifStr) ++ "/*\n".toList)
                      (-1) 0 blocks = r := Option.some.inj h
                  simp at hs
                · rw [if_neg hneg] at h
                  by_cases hzero : ifLines = 0
                  · rw [if_pos hzero] at h
                    cases h
                  · rw [if_neg hzero] at h
                    obtain ⟨m, hkm, hmlt, hcodes⟩ :=
                      findEndIfGoF_consumed lines (pyFind l ifStr) (start + line_num)
                        (start + line_num - index).toNat index [] 1 codes ifLines hfe
                        (by omega)
                    have hif1 : ifLines = 1 + (m : Int) := hkm
                    obtain ⟨hble, hnl, hcnt⟩ := ih (index + ifLines) _ (nl + 2) (blocks + 1) r
                      (by omega) h hs
                    refine ⟨by omega, by push_cast at hnl ⊢; omega, ?_⟩
                    rw [hcnt]
                    have hsplit := sjGo_split lines (index + ifLines) index (start + line_num)
                      (by omega) (by omega)
                    rw [hsplit, countNL_append]
                    have hstrip : countNL (strReplace (strReplace codes openCmt []) closeCmt [])
                        = countNL codes := by
                      rw [countNL_replace (by decide) (by decide),
                        countNL_replace (by decide) (by decide)]
                    have hcc : countNL codes =
                        countNL (sjGo lines (index + ifLines) index) := by
                      rw [hcodes]
                      rw [show index + m + 1 = index + ifLines by omega]
                      simp
                    have htabs : ∀ col : Int, countNL (tabs col) = 0 := by
                      intro col
                      unfold tabs countNL
                      induction col.toNat with
                      | zero => rfl
                      | succ n ihn => simpa [List.replicate_succ, List.foldr] using ihn
                    simp only [countNL_append, hstrip, htabs, hcc]
                    have h1 : countNL ("/*\n".toList) = 1 := by decide
                    have h2 : countNL ("*/\n".toList) = 1 := by decide
                    rw [h1, h2]
                    omega
            · rw [if_neg hq2] at h
              obtain ⟨hble, hnl, hcnt⟩ := ih (index + 1) (acc ++ l) nl blocks r
                (by omega) h hs
              refine ⟨hble, hnl, ?_⟩
              rw [hcnt, countNL_append,
                sjGo_step (by omega : index < start + line_num), hget]
              simp only [Option.getD, countNL_append]
              omega
        · rw [if_neg hq1] at h
          obtain ⟨hble, hnl, hcnt⟩ := ih (index + 1) (acc ++ l) nl blocks r
            (by omega) h hs
          refine ⟨hble, hnl, ?_⟩
          rw [hcnt, countNL_append,
            sjGo_step (by omega : index < start + line_num), hget]
          simp only [Option.getD, countNL_append]
          omega
    · rw [if_neg hin] at h
      obtain rfl : RCRes.mk acc 1 nl blocks = r := Option.some.inj h
      refine ⟨le_rfl, by simp, ?_⟩
      rw [sjGo_stop (by omega)]
      simp [countNL_nil]

/-- C6: whenever `reduceComplexity` succeeds having wrapped `N` qualifying
nested conditional blocks (each matched by `findEndIf` before the span's
end), the returned net line delta is `2*N` and the rewritten span contains
exactly `2*N` more newline-terminated lines than the traversed input span. -/
theorem C6_reduceComplexity (lines : List Str) (start line_num : Int) (r : RCRes)
    (h : reduceComplexity lines start line_num = some r) (hs : r.status = 1) :
    r.newLines = 2 * (r.blocks : Int) ∧
    countNL r.code = countNL (spanJoin lines start line_num) + 2 * r.blocks := by
  obtain ⟨-, hnl, hcnt⟩ := rcGoF_spec lines start line_num line_num.toNat start [] 0 0 r
    (by omega) h hs
  refine ⟨by push_cast at hnl ⊢; omega, ?_⟩
  rw [hcnt]
  simp [spanJoin, countNL_nil]

/-- C6 witness: the example file's one wrappable block gives delta 2 and a
span two lines longer. -/
theorem C6_reduceComplexity_witness :
    (reduceComplexity (pyReadlines goContent) 0 5).elim False (fun r =>
      r.newLines = 2 * (r.blocks : Int) ∧
      countNL r.code = countNL (spanJoin (pyReadlines goContent) 0 5) + 2 * r.blocks) := by
  cases hr : reduceComplexity (pyReadlines goContent) 0 5 with
  | none =>
    have hns : (reduceComplexity (pyReadlines goContent) 0 5).isSome = true := by decide
    rw [hr] at hns
    cases hns
  | some r =>
    have hst : r.status = 1 := by
      have hmap : (reduceComplexity (pyReadlines goContent) 0 5).map (fun x => x.status) =
          some 1 := by decide
      rw [hr] at hmap
      injection hmap
    simpa using C6_reduceComplexity (pyReadlines goContent) 0 5 r hr hst

/-- C10 witness: a file containing the constructor call. -/
theorem C10_solve112_witness :
    (solve112 pJava stJava).files "A.java".toList =
      (strReplace javaContent reStr mpStr).take
          (pyRfind (strReplace javaContent reStr mpStr) ['\x7d']).toNat ++
        strJavaException ++
        ((strReplace javaContent reStr mpStr).drop
          (pyRfind (strReplace javaContent reStr mpStr) ['\x7d']).toNat).dropLast := by
  exact ((C10_solve112 pJava stJava ("A.java".toList) javaContent
      (strReplace javaContent reStr mpStr)
      (pyRfind (strReplace javaContent reStr mpStr) ['\x7d'])
      (by decide) (by decide) rfl rfl).2 (by decide) (by decide)).1

/-! ## C8: the abort path of solve3776 -/

/-- When `reduceComplexity` reports failure (which happens exactly when
`findEndIf` could not find the terminating brace), the `while` loop of
`solve3776`, run from any index at or before `start` with no
`package`/`test` line on the way, returns the abort outcome. -/
theorem loop3776F_abort (lines : List Str) (start line_num : Int) (r : RCRes)
    (hr : reduceComplexity lines start line_num = some r) (hrs : r.status < 0)
    (hs0 : 0 ≤ start) (hslt : start < (lines.length : Int)) :
    ∀ n (index : Nat) (acc : Str) (add : Int) fuel,
      start.toNat - index ≤ n → index ≤ start.toNat →
      (∀ l ∈ lines.take (start.toNat + 1),
        ¬ (0 ≤ pyFind l pkgStr ∧ 0 ≤ pyFind l testStr)) →
      start.toNat - index < fuel →
      loop3776F lines start line_num fuel index acc add = .abortReturn := by
  intro n
  induction n with
  | zero =>
    intro index acc add fuel hn hile htest hfuel
    obtain ⟨f, rfl⟩ : ∃ f, fuel = f + 1 := ⟨fuel - 1, by omega⟩
    have hieq : index = start.toNat := by omega
    subst hieq
    simp only [loop3776F]
    rw [if_pos (by omega : ((start.toNat : Nat) : Int) < (lines.length : Int))]
    cases hget : lines.get? start.toNat with
    | none =>
      exact absurd (List.get?_eq_none.mp hget) (by omega)
    | some l =>
      simp only [hget]
      have hmem : l ∈ lines.take (start.toNat + 1) := by
        have hg2 : (lines.take (start.toNat + 1)).get? start.toNat = some l := by
          rw [List.get?_take (by omega)]
          exact hget
        exact List.get?_mem hg2
      rw [if_neg (htest l hmem)]
      rw [if_pos (by omega : ((start.toNat : Nat) : Int) = start)]
      simp only [hr]
      rw [if_pos hrs]
  | succ m ih =>
    intro index acc add fuel hn hile htest hfuel
    obtain ⟨f, rfl⟩ : ∃ f, fuel = f + 1 := ⟨fuel - 1, by omega⟩
    simp only [loop3776F]
    rw [if_pos (by omega : ((index : Nat) : Int) < (lines.length : Int))]
    cases hget : lines.get? index with
    | none =>
      exact absurd (List.get?_eq_none.mp hget) (by omega)
    | some l =>
      simp only [hget]
      have hmem : l ∈ lines.take (start.toNat + 1) := by
        have hg2 : (lines.take (start.toNat + 1)).get? index = some l := by
          rw [List.get?_take (by omega)]
          exact hget
        exact List.get?_mem hg2
      rw [if_neg (htest l hmem)]
      by_cases hieq : ((index : Nat) : Int) = start
      · rw [if_pos hieq]
        simp only [hr]
        rw [if_pos hrs]
      · rw [if_neg hieq]
        have hlt : index < start.toNat := by omega
        exact ih (index + 1) (acc ++ l) add f (by omega) (by omega) htest (by omega)

/-- C8: when the end-of-block search fails (`reduceComplexity` returns a
negative status at the located span, which happens exactly when `findEndIf`
hits the span's end without a matching brace), `solve3776` aborts the
finding's edit: the returned state is exactly the input state — file
contents and ledger untouched — and a run simply continues with the next
findings. -/
theorem C8_abort_frame (p : Finding) (st : St) (lines : List Str)
    (start line_num : Int) (cs : Str) (r : RCRes) (rest : List DStep)
    (hlines : lines = pyReadlines (st.files (replaceFirst p.resource slashStr [])))
    (hpath : pyFind (replaceFirst p.resource slashStr []) testStr < 0)
    (hfc : findCodes lines (effSearchStart st p) = some (start, line_num, cs))
    (hs0 : 0 ≤ start) (hslt : start < (lines.length : Int))
    (htest : ∀ l ∈ lines.take (start.toNat + 1),
      ¬ (0 ≤ pyFind l pkgStr ∧ 0 ≤ pyFind l testStr))
    (hr : reduceComplexity lines start line_num = some r) (hrs : r.status < 0) :
    solve3776Full p st = some (st, none) ∧
    runD (DStep.d3776 p :: rest) st = runD rest st := by
  have hloop : loop3776 lines start line_num 0 [] 0 = .abortReturn := by
    unfold loop3776
    exact loop3776F_abort lines start line_num r hr hrs hs0 hslt
      start.toNat 0 [] 0 (lines.length - 0) (by omega) (by omega) htest (by omega)
  have hmain : solve3776Full p st = some (st, none) := by
    unfold solve3776Full
    rw [if_neg (by omega : ¬ 0 ≤ pyFind (replaceFirst p.resource slashStr []) testStr)]
    rw [← hlines]
    simp only [hfc, hloop]
  refine ⟨hmain, ?_⟩
  simp only [runD, stepFull, hmain]

/-- C8 witness: the example file whose nested conditional has no closing
brace at its column is aborted — state unchanged, run continues. -/
theorem C8_abort_frame_witness :
    solve3776Full pGoBad3776 stGo = some (stGo, none) ∧
    runD (DStep.d3776 pGoBad3776 :: []) stGo = runD [] stGo := by
  refine C8_abort_frame pGoBad3776 stGo
    (pyReadlines (stGo.files (replaceFirst pGoBad3776.resource slashStr [])))
    0 4 goBadContent ⟨"func a() \x7b\n\t\t\t/*\n".toList, -1, 0, 0⟩ []
    rfl (by decide) ?_ (by decide) (by decide) (by decide) ?_ (by decide)
  · decide
  · decide


/-! ## C9: the early test-returns of solve3776 -/

/-- A finding whose path contains `test`. -/
def pTest3776 : Finding :=
  { resource := "test.go".toList, message := [], code := "go:S3776".toList,
    startLineNumber := 1 }

/-- A finding against a file whose only `package`/`test` line sits strictly
inside the located span. -/
def pC9 : Finding :=
  { resource := "c.go".toList, message := [], code := "go:S3776".toList,
    startLineNumber := 1 }

def c9Content : Str :=
  "func a() \x7b\n\t\t\tif b \x7b\n\t\t\tpackage test\n\t\t\t\x7d\n\x7d\n".toList

def stC9 : St :=
  { files := fun q => if q = "c.go".toList then c9Content else [],
    ledger := fun _ => 0, testFiles := [] }

/-- The `while` loop of `solve3776` cannot run to completion if some line
at an index it visits (any index outside the open interior of the located
span) contains both `package` and `test`. -/
theorem loop3776F_no_ok (lines : List Str) (start line_num : Int) (i : Nat)
    (hi : i < lines.length)
    (ht1 : 0 ≤ pyFind (lineAt lines i) pkgStr)
    (ht2 : 0 ≤ pyFind (lineAt lines i) testStr)
    (hni : ¬ (start < (i : Int) ∧ (i : Int) < start + line_num)) :
    ∀ fuel (index : Nat) (acc : Str) (add : Int) nc ad,
      lines.length - index ≤ fuel → index ≤ i →
      loop3776F lines start line_num fuel index acc add ≠ .ok nc ad := by
  intro fuel
  induction fuel with
  | zero =>
    intro index acc add nc ad hfuel hile _
    exact absurd hfuel (by omega)
  | succ f ih =>
    intro index acc add nc ad hfuel hile h
    simp only [loop3776F] at h
    rw [if_pos (by omega : ((index : Nat) : Int) < (lines.length : Int))] at h
    cases hget : lines.get? index with
    | none =>
      exact absurd (List.get?_eq_none.mp hget) (by omega)
    | some l =>
      simp only [hget] at h
      by_cases htl : 0 ≤ pyFind l pkgStr ∧ 0 ≤ pyFind l testStr
      · rw [if_pos htl] at h
        exact Res3776.noConfusion h
      · rw [if_neg htl] at h
        have hnei : index ≠ i := by
          intro hcc
          subst hcc
          have hla : lineAt lines index = l := by
            unfold lineAt
            rw [hget]
            rfl
          rw [hla] at ht1 ht2
          exact htl ⟨ht1, ht2⟩
        have hlt : index < i := by omega
        by_cases hieq : ((index : Nat) : Int) = start
        · rw [if_pos hieq] at h
          cases hrc : reduceComplexity lines start line_num with
          | none =>
            simp only [hrc] at h
            exact Res3776.noConfusion h
          | some r =>
            simp only [hrc] at h
            by_cases hst : r.status < 0
            · rw [if_pos hst] at h
              exact Res3776.noConfusion h
            · rw [if_neg hst] at h
              by_cases hln : line_num ≤ 0
              · rw [if_pos hln] at h
                exact Res3776.noConfusion h
              · rw [if_neg hln] at h
                have hge : start + line_num ≤ (i : Int) := by
                  rcases not_and_or.mp hni with h1 | h2
                  · exact absurd (by omega : start < (i : Int)) h1
                  · omega
                exact ih (index + line_num.toNat) (acc ++ r.code) (add + r.newLines)
                  nc ad (by omega) (by omega) h
        · rw [if_neg hieq] at h
          exact ih (index + 1) (acc ++ l) add nc ad (by omega) (by omega) h

/-- C9 (amended): the cognitive-complexity driver's early test-returns
leave the file content and its ledger entry unchanged when the file path
contains `test`, or when — for whatever span the locator finds — some line
containing both `package` and `test` sits at an index the span-skipping
loop actually visits (outside the open interior of the span).  Without the
visited-index proviso the claim fails: a `package`/`test` line strictly
inside the located span is skipped and the file is rewritten. -/
theorem C9_early_return_frame (p : Finding) (st : St) (lines : List Str)
    (hlines : lines = pyReadlines (st.files (replaceFirst p.resource slashStr [])))
    (hyp : 0 ≤ pyFind (replaceFirst p.resource slashStr []) testStr ∨
      (∀ start line_num cs,
        findCodes lines (effSearchStart st p) = some (start, line_num, cs) →
        ∃ i : Nat, i < lines.length ∧
          0 ≤ pyFind (lineAt lines i) pkgStr ∧
          0 ≤ pyFind (lineAt lines i) testStr ∧
          ¬ (start < (i : Int) ∧ (i : Int) < start + line_num))) :
    ∀ r, solve3776Full p st = some r →
      r.1.files = st.files ∧ r.1.ledger = st.ledger ∧ r.2 = none := by
  intro r hr
  simp only [solve3776Full] at hr
  by_cases hp : 0 ≤ pyFind (replaceFirst p.resource slashStr []) testStr
  · rw [if_pos hp] at hr
    have h2 := Option.some.inj hr
    rw [← h2]
    exact ⟨rfl, rfl, rfl⟩
  · rw [if_neg hp] at hr
    rw [← hlines] at hr
    have hc := hyp.resolve_left hp
    cases hfc : findCodes lines (effSearchStart st p) with
    | none =>
      rw [hfc] at hr
      exact Option.noConfusion hr
    | some tri =>
      obtain ⟨start, line_num, cs⟩ := tri
      simp only [hfc] at hr
      obtain ⟨i, hi, hp1, hp2, hni⟩ := hc start line_num cs hfc
      cases hloop : loop3776 lines start line_num 0 [] 0 with
      | exn =>
        simp only [hloop] at hr
        exact Option.noConfusion hr
      | testReturn =>
        simp only [hloop] at hr
        have h2 := Option.some.inj hr
        rw [← h2]
        exact ⟨rfl, rfl, rfl⟩
      | abortReturn =>
        simp only [hloop] at hr
        have h2 := Option.some.inj hr
        rw [← h2]
        exact ⟨rfl, rfl, rfl⟩
      | ok nc ad =>
        unfold loop3776 at hloop
        exact absurd hloop
          (loop3776F_no_ok lines start line_num i hi hp1 hp2 hni
            (lines.length - 0) 0 [] 0 nc ad le_rfl (by omega))

/-- C9 witness: a finding whose path contains `test` is returned early with
file and ledger untouched. -/
theorem C9_early_return_frame_witness :
    ({ stGo with testFiles :=
        stGo.testFiles ++ [replaceFirst pTest3776.resource slashStr []] } : St).files
        = stGo.files ∧
    ({ stGo with testFiles :=
        stGo.testFiles ++ [replaceFirst pTest3776.resource slashStr []] } : St).ledger
        = stGo.ledger ∧
    (none : Option Int) = none := by
  exact C9_early_return_frame pTest3776 stGo
    (pyReadlines (stGo.files (replaceFirst pTest3776.resource slashStr []))) rfl
    (Or.inl (by decide))
    ({ stGo with testFiles :=
        stGo.testFiles ++ [replaceFirst pTest3776.resource slashStr []] }, none)
    rfl

/-- C9 counterexample to the unamended claim: the file content has a line
containing both `package` and `test` (inside the located span), yet the
driver rewrites the file and records a positive delta instead of returning
early. -/
theorem C9_counterexample :
    (∃ l ∈ pyReadlines (stC9.files "c.go".toList),
      0 ≤ pyFind l pkgStr ∧ 0 ≤ pyFind l testStr) ∧
    (solve3776Full pC9 stC9).map (fun r => (r.1.files "c.go".toList, r.2)) ≠
      some (stC9.files "c.go".toList, none) := by
  constructor
  · decide
  · decide


/-! ## C5: the ledger invariant of the offset-driven drivers -/

/-- Any successful ledger-driven step changes the ledger entry of its own
file by exactly the recorded delta (zero — no change at all — when no write
happened). -/
theorem stepFull_ledger (s : DStep) (st1 st2 : St) (d : Option Int)
    (h : stepFull s st1 = some (st2, d)) :
    st2.ledger (dpath s) = st1.ledger (dpath s) + d.getD 0 ∧
    (d = none → st2.ledger = st1.ledger ∧ st2.files = st1.files) := by
  cases s with
  | d3776 p =>
    simp only [stepFull, solve3776Full] at h
    by_cases hp : 0 ≤ pyFind (replaceFirst p.resource slashStr []) testStr
    · rw [if_pos hp] at h
      have h2 := Option.some.inj h
      simp only [Prod.mk.injEq] at h2
      obtain ⟨hst, hd⟩ := h2
      rw [← hst, ← hd]
      exact ⟨by simp, fun _ => ⟨rfl, rfl⟩⟩
    · rw [if_neg hp] at h
      cases hfc : findCodes (pyReadlines (st1.files (replaceFirst p.resource slashStr [])))
          (effSearchStart st1 p) with
      | none =>
        simp only [hfc] at h
        exact Option.noConfusion h
      | some tri =>
        obtain ⟨start, line_num, cs⟩ := tri
        simp only [hfc] at h
        cases hloop : loop3776 (pyReadlines (st1.files (replaceFirst p.resource slashStr [])))
            start line_num 0 [] 0 with
        | exn =>
          simp only [hloop] at h
          exact Option.noConfusion h
        | testReturn =>
          simp only [hloop] at h
          have h2 := Option.some.inj h
          simp only [Prod.mk.injEq] at h2
          obtain ⟨hst, hd⟩ := h2
          rw [← hst, ← hd]
          exact ⟨by simp, fun _ => ⟨rfl, rfl⟩⟩
        | abortReturn =>
          simp only [hloop] at h
          have h2 := Option.some.inj h
          simp only [Prod.mk.injEq] at h2
          obtain ⟨hst, hd⟩ := h2
          rw [← hst, ← hd]
          exact ⟨by simp, fun _ => ⟨rfl, rfl⟩⟩
        | ok nc ad =>
          simp only [hloop] at h
          have h2 := Option.some.inj h
          simp only [Prod.mk.injEq] at h2
          obtain ⟨hst, hd⟩ := h2
          rw [← hst, ← hd]
          constructor
          · show update st1.ledger (replaceFirst p.resource slashStr [])
              (st1.ledger (replaceFirst p.resource slashStr []) + ad)
              (replaceFirst p.resource slashStr []) = _
            rw [update_same]
            rfl
          · intro hcc
            exact Option.noConfusion hcc
  | d1186 p =>
    simp only [stepFull, solve1186Full] at h
    cases hfc : findCodes (pyReadlines (st1.files (replaceFirst p.resource slashStr [])))
        (effSearchStart st1 p) with
    | none =>
      simp only [hfc] at h
      exact Option.noConfusion h
    | some tri =>
      obtain ⟨start, line_num, cs⟩ := tri
      simp only [hfc] at h
      cases hloop : loop1186 (pyReadlines (st1.files (replaceFirst p.resource slashStr [])))
          start line_num cs 0 [] 0 with
      | none =>
        simp only [hloop] at h
        exact Option.noConfusion h
      | some pr =>
        obtain ⟨nc, ad⟩ := pr
        simp only [hloop] at h
        have h2 := Option.some.inj h
        simp only [Prod.mk.injEq] at h2
        obtain ⟨hst, hd⟩ := h2
        rw [← hst, ← hd]
        constructor
        · show update st1.ledger (replaceFirst p.resource slashStr [])
            (st1.ledger (replaceFirst p.resource slashStr []) + ad)
            (replaceFirst p.resource slashStr []) = _
          rw [update_same]
          rfl
        · intro hcc
          exact Option.noConfusion hcc

/-- Running a sequence of steps that all target the file `f` adds to `f`'s
ledger entry exactly the sum of the recorded deltas. -/
theorem runD_ledger_sum (f : Str) :
    ∀ (steps : List DStep) (st0 : St), (∀ s ∈ steps, dpath s = f) →
      ∀ st', runD steps st0 = some st' →
        st'.ledger f = st0.ledger f + sumDeltas steps st0 := by
  intro steps
  induction steps with
  | nil =>
    intro st0 _ st' h
    have h2 := Option.some.inj h
    rw [← h2]
    simp [sumDeltas]
  | cons s r ih =>
    intro st0 hall st' h
    simp only [runD] at h
    cases hsf : stepFull s st0 with
    | none =>
      simp only [hsf] at h
      exact Option.noConfusion h
    | some pr =>
      obtain ⟨st2, d⟩ := pr
      simp only [hsf] at h
      have hstep := (stepFull_ledger s st0 st2 d hsf).1
      have hrest := ih st2 (fun x hx => hall x (List.mem_cons_of_mem s hx)) st' h
      have hsum : sumDeltas (s :: r) st0 = d.getD 0 + sumDeltas r st2 := by
        simp only [sumDeltas, hsf]
      rw [hsum, hrest]
      rw [hall s (List.mem_cons_self s r)] at hstep
      omega

/-- C5: along any run of ledger-driven steps on a single file `f` whose
ledger entry starts at zero, before the `k`-th step the effective 0-based
search start equals that finding's reported 1-based line minus one plus the
sum of the deltas recorded by the edits before it; and each step updates
its file's ledger entry additively by exactly its recorded delta, only
when a write happened (steps without a write leave ledger and files
exactly as they were). -/
theorem C5_ledger_invariant (f : Str) (steps : List DStep) (st0 : St)
    (hall : ∀ s ∈ steps, dpath s = f) (hz : st0.ledger f = 0) :
    (∀ (k : Nat) (st' : St), runD (steps.take k) st0 = some st' →
      st'.ledger f = sumDeltas (steps.take k) st0 ∧
      ∀ s, steps.get? k = some s →
        effSearchStart st' (dFinding s) =
          (dFinding s).startLineNumber - 1 + sumDeltas (steps.take k) st0) ∧
    (∀ (s : DStep) (st1 st2 : St) (d : Option Int), stepFull s st1 = some (st2, d) →
      st2.ledger (dpath s) = st1.ledger (dpath s) + d.getD 0 ∧
      (d = none → st2.ledger = st1.ledger ∧ st2.files = st1.files)) := by
  constructor
  · intro k st' hrun
    have hledger := runD_ledger_sum f (steps.take k) st0
      (fun s hs => hall s (List.take_subset k steps hs)) st' hrun
    rw [hz] at hledger
    have hl2 : st'.ledger f = sumDeltas (steps.take k) st0 := by omega
    refine ⟨hl2, ?_⟩
    intro s hgs
    have hdp : dpath s = f := hall s (List.get?_mem hgs)
    show st'.ledger (replaceFirst (dFinding s).resource slashStr []) +
      (dFinding s).startLineNumber - 1 = _
    rw [show replaceFirst (dFinding s).resource slashStr [] = f from hdp, hl2]
    ring
  · exact stepFull_ledger

/-- C5 witness: before the first step of a run the effective search start
is the reported line minus one. -/
theorem C5_ledger_invariant_witness :
    stGo.ledger "a.go".toList = sumDeltas ([DStep.d3776 pGo3776].take 0) stGo ∧
    effSearchStart stGo (dFinding (DStep.d3776 pGo3776)) =
      (dFinding (DStep.d3776 pGo3776)).startLineNumber - 1 +
        sumDeltas ([DStep.d3776 pGo3776].take 0) stGo := by
  have h := (C5_ledger_invariant "a.go".toList [DStep.d3776 pGo3776] stGo
      (by decide) (by decide)).1 0 stGo rfl
  exact ⟨h.1, h.2 (DStep.d3776 pGo3776) rfl⟩


end CodeClean
